import Mathlib

/-!
# Verification of the gohash search engine

Shallow embedding of the `gohash` repository's searcher core (the `Hasher`
type and its helpers) into Lean 4, together with proofs of the specified
properties: the odometer enumeration order, the buffer invariants, the
configuration validation, alphabet normalization, and the digest comparison.

Bytes are modelled as `Nat`; Go byte slices are `List Nat`; Go `int` is `Int`
where sign matters (`minLength`, `maxLength`).  Go's infinite search loops are
modelled with explicit fuel.  The external digest functions (`md5.Sum`,
`sha1.Sum`, ...) are an abstract parameter `digest : String → List Nat →
List Nat`, matching the spec's treatment of the digest registry as an opaque
external collaborator.
-/

namespace GoHash

/-- Embeds `byteArrayEquals`'s index loop: walks both slices in lockstep
comparing bytes (the Go loop ranges over `a`, indexing `b`, after the length
check has ensured both have the same length). -/
def byteArrayLoop : List Nat → List Nat → Bool
  | v :: as, w :: bs => if v != w then false else byteArrayLoop as bs
  | _, _ => true

/-- Embeds `byteArrayEquals` (part_000): false on length mismatch, then
byte-for-byte comparison. -/
def byteArrayEquals (a b : List Nat) : Bool :=
  if a.length != b.length then false else byteArrayLoop a b

/-- Embeds `isByteInSlice` (part_000): linear membership scan. -/
def isByteInSlice (a : Nat) : List Nat → Bool
  | [] => false
  | b :: rest => if b == a then true else isByteInSlice a rest

/-- Embeds the dedup loop of `strToDistinctByteSlice`: appends each input byte
to `res` unless already present (first occurrence wins). -/
def distinctLoop (res : List Nat) : List Nat → List Nat
  | [] => res
  | c :: rest =>
    if isByteInSlice c res then distinctLoop res rest
    else distinctLoop (res ++ [c]) rest

/-- Embeds `strToDistinctByteSlice` (part_000): dedup keeping first
occurrences, then sort ascending.  Go uses `sort.Sort(byteSlice(res))` with
`Less = (<)`, an unspecified comparison sort; on the deduplicated (hence
nodup) slice every correct sort produces the same unique ascending
permutation, which `List.insertionSort (· ≤ ·)` computes. -/
def strToDistinctByteSlice (s : List Nat) : List Nat :=
  List.insertionSort (· ≤ ·) (distinctLoop [] s)

/-- The distinct `fmt.Errorf` values produced by the searcher, one constructor
per format string (`errMessage` renders the exact Go message). -/
inductive GoErr where
  | allowedKeysUnset : GoErr
  | minLengthUnset : GoErr
  | algoUnset : GoErr
  | wrongSize (required actual : Nat) : GoErr
  | unknownAlgo (name : String) : GoErr
  | reverseRandomMix : GoErr
deriving DecidableEq, Repr

/-- The exact Go error message of each `GoErr` value. -/
def errMessage : GoErr → String
  | .allowedKeysUnset => "allowedKeys unset"
  | .minLengthUnset => "minLength unset"
  | .algoUnset => "algo unset"
  | .wrongSize required actual =>
      "expectedHash is wrong size, should be " ++ toString required ++
      " bit, is " ++ toString actual
  | .unknownAlgo name => "unknown algo " ++ name
  | .reverseRandomMix => "reverse and random dont mix"

/-- Embeds the `algos` registry map of the hasher file (part_002):
algorithm identifier to expected digest bit width. -/
def algos : String → Option Nat
  | "md5" => some 128
  | "sha1" => some 160
  | "sha224" => some 224
  | "sha256" => some 256
  | "sha384" => some 384
  | "sha512" => some 512
  | "sha512-224" => some 224
  | "sha512-256" => some 256
  | "sha3-224" => some 224
  | "sha3-256" => some 256
  | "sha3-384" => some 384
  | "sha3-512" => some 512
  | _ => none

/-- Embeds the `Hasher` struct (part_002).  `tryCnt` embeds the Go field
`try` (a Lean keyword).  The `tick` counter belongs to the progress reporter
goroutine, which is diagnostic-only and not modelled further. -/
structure Hasher where
  algo : String
  suffix : List Nat
  expected : List Nat
  minLength : Int
  maxLength : Int
  allowedKeys : List Nat
  reverse : Bool
  buffer : List Nat
  tryCnt : Nat
  tick : Nat
deriving DecidableEq, Repr

/-- Embeds `(*Hasher).verify` (part_002): the validation checks in source
order. -/
def verify (h : Hasher) : Option GoErr :=
  if h.allowedKeys.length == 0 then some .allowedKeysUnset
  else if h.minLength == 0 then some .minLengthUnset
  else if h.algo.length == 0 then some .algoUnset
  else
    match algos h.algo with
    | some requiredBitSize =>
      if h.expected.length * 8 == requiredBitSize then none
      else some (.wrongSize requiredBitSize (h.expected.length * 8))
    | none => some (.unknownAlgo h.algo)

/-- Embeds `(*Hasher).equals` (part_002): the dispatch chain over the twelve
supported algorithms.  Modelled from the spec: the digest functions
(`md5.Sum` ... `sha3.Sum512`) are external library code, abstracted as the
`digest` parameter; the fixed-size comparison helpers `byteNNArrayEquals` are
repository code absent from src/, modelled per spec section 4.4 as
byte-for-byte equality with automatic non-match on length mismatch, i.e.
`byteArrayEquals`. -/
def equals (digest : String → List Nat → List Nat) (h : Hasher) : Bool :=
  if h.algo == "md5" && byteArrayEquals (digest h.algo h.buffer) h.expected then true
  else if h.algo == "sha1" && byteArrayEquals (digest h.algo h.buffer) h.expected then true
  else if h.algo == "sha224" && byteArrayEquals (digest h.algo h.buffer) h.expected then true
  else if h.algo == "sha256" && byteArrayEquals (digest h.algo h.buffer) h.expected then true
  else if h.algo == "sha384" && byteArrayEquals (digest h.algo h.buffer) h.expected then true
  else if h.algo == "sha512" && byteArrayEquals (digest h.algo h.buffer) h.expected then true
  else if h.algo == "sha512-224" && byteArrayEquals (digest h.algo h.buffer) h.expected then true
  else if h.algo == "sha512-256" && byteArrayEquals (digest h.algo h.buffer) h.expected then true
  else if h.algo == "sha3-224" && byteArrayEquals (digest h.algo h.buffer) h.expected then true
  else if h.algo == "sha3-256" && byteArrayEquals (digest h.algo h.buffer) h.expected then true
  else if h.algo == "sha3-384" && byteArrayEquals (digest h.algo h.buffer) h.expected then true
  else if h.algo == "sha3-512" && byteArrayEquals (digest h.algo h.buffer) h.expected then true
  else false

/-- Embeds the scan loop of `nextValueFor`: once the `next` flag is set the
following element is returned; falls through to `'0'` (byte 48). -/
def nextValAux (b : Nat) : List Nat → Bool → Nat
  | [], _ => 48
  | x :: xs, next => if next then x else nextValAux b xs (x == b)

/-- Embeds `(*Hasher).nextValueFor` (part_002). -/
def nextValueFor (keys : List Nat) (b : Nat) : Nat :=
  nextValAux b keys false

/-- The scan loop of `nextValueFor` with the fallthrough made observable:
`none` exactly when the Go loop would complete and reach `return '0'`. -/
def nextValOptAux (b : Nat) : List Nat → Bool → Option Nat
  | [], _ => none
  | x :: xs, next => if next then some x else nextValOptAux b xs (x == b)

/-- `nextValueFor` with the fallthrough made observable (see
`nextValOptAux`). -/
def nextValueForOpt (keys : List Nat) (b : Nat) : Option Nat :=
  nextValOptAux b keys false

/-- Embeds the scan loop of `prevValueFor`: returns the accumulator `prev`
when `b` is found; falls through to the last element otherwise. -/
def prevValAux (b : Nat) : List Nat → Nat → Nat
  | [], prev => prev
  | x :: xs, prev => if x == b then prev else prevValAux b xs x

/-- Embeds `(*Hasher).prevValueFor` (part_002): `prev` starts at
`allowedKeys[0]` (the Go code indexes, panicking on empty; modelled with a
default of 0, unreachable after `verify`). -/
def prevValueFor (keys : List Nat) (b : Nat) : Nat :=
  prevValAux b keys (keys.getD 0 0)

/-- The scan loop of `prevValueFor` with the fallthrough made observable:
`none` exactly when the loop completes without finding `b` (the Go function
would then return the final accumulator instead of a value produced inside
the loop). -/
def prevValOptAux (b : Nat) : List Nat → Nat → Option Nat
  | [], _ => none
  | x :: xs, prev => if x == b then some prev else prevValOptAux b xs x

/-- `prevValueFor` with the fallthrough made observable (see
`prevValOptAux`). -/
def prevValueForOpt (keys : List Nat) (b : Nat) : Option Nat :=
  prevValOptAux b keys (keys.getD 0 0)

/-- Embeds the ascending "update mutation" roller loop of `FindSequential` on
the reversed prefix (the Go loop runs right-to-left from index
`minLength-1`): a byte equal to `lastAllowedKey` wraps to `firstAllowedKey`
and the carry continues; otherwise the byte is replaced by its successor and
the loop breaks. -/
def rollAscRev (keys : List Nat) (first last : Nat) : List Nat → List Nat
  | [] => []
  | x :: xs =>
    if x == last then first :: rollAscRev keys first last xs
    else nextValueFor keys x :: xs

/-- Embeds the descending (`reverse`) roller loop of `FindSequential` on the
reversed prefix: a byte equal to `firstAllowedKey` wraps to `lastAllowedKey`
and the carry continues; otherwise the byte is replaced by its predecessor
and the loop breaks. -/
def rollDescRev (keys : List Nat) (first last : Nat) : List Nat → List Nat
  | [] => []
  | x :: xs =>
    if x == first then last :: rollDescRev keys first last xs
    else prevValueFor keys x :: xs

/-- `rollAscRev` with every `nextValueFor` call routed through
`nextValueForOpt`: `none` iff some call would have reached the fallback. -/
def rollAscRevOpt (keys : List Nat) (first last : Nat) : List Nat → Option (List Nat)
  | [] => some []
  | x :: xs =>
    if x == last then (rollAscRevOpt keys first last xs).map (fun t => first :: t)
    else (nextValueForOpt keys x).map (fun v => v :: xs)

/-- `rollDescRev` with every `prevValueFor` call routed through
`prevValueForOpt`: `none` iff some call would have reached the fallthrough. -/
def rollDescRevOpt (keys : List Nat) (first last : Nat) : List Nat → Option (List Nat)
  | [] => some []
  | x :: xs =>
    if x == first then (rollDescRevOpt keys first last xs).map (fun t => last :: t)
    else (prevValueForOpt keys x).map (fun v => v :: xs)

/-- The buffer initialization of `FindSequential` (part_002 lines 188-202):
`minLength` copies of the first (or, reversed, last) allowed key, then the
suffix appended once. -/
def initSeq (h : Hasher) : Hasher :=
  let fill : Nat :=
    if h.reverse then h.allowedKeys.getD (h.allowedKeys.length - 1) 0
    else h.allowedKeys.getD 0 0
  { h with buffer := List.replicate h.minLength.toNat fill ++ h.suffix }

/-- One pass of the `FindSequential` "update mutation" loop plus the `try`
increment: rolls the first `minLength` bytes of the buffer (right-to-left,
hence via the reversed prefix), leaving the suffix bytes untouched. -/
def seqStepH (h : Hasher) : Hasher :=
  let n := h.minLength.toNat
  let keys := h.allowedKeys
  let first := keys.getD 0 0
  let last := keys.getD (keys.length - 1) 0
  let pfx := h.buffer.take n
  let newPfx :=
    if h.reverse then (rollDescRev keys first last pfx.reverse).reverse
    else (rollAscRev keys first last pfx.reverse).reverse
  { h with buffer := newPfx ++ h.buffer.drop n, tryCnt := h.tryCnt + 1 }

/-- The `FindSequential` main loop with explicit fuel: `none` means the fuel
ran out (the Go loop would still be running). -/
def findSeqAux (digest : String → List Nat → List Nat) : Nat → Hasher → Option (List Nat)
  | 0, _ => none
  | fuel + 1, h =>
    if equals digest h then some h.buffer
    else findSeqAux digest fuel (seqStepH h)

/-- Embeds `(*Hasher).FindSequential` (part_002): verify, initialize the
buffer, then digest-and-roll until a match.  `none` = fuel exhausted. -/
def FindSequential (digest : String → List Nat → List Nat) (h : Hasher)
    (fuel : Nat) : Option (Except GoErr (List Nat)) :=
  match verify h with
  | some e => some (Except.error e)
  | none => (findSeqAux digest fuel (initSeq h)).map Except.ok

/-- The buffer initialization of `FindRandom` (part_002 lines 247-257):
`minLength` copies of the first allowed key, then the suffix. -/
def initRand (h : Hasher) : Hasher :=
  { h with buffer :=
      List.replicate h.minLength.toNat (h.allowedKeys.getD 0 0) ++ h.suffix }

/-- One pass of the `FindRandom` mutation loop plus the `try` increment:
every prefix position is redrawn from `allowedKeys`.  The random source
`rand.Intn(allowedKeysLen)` is modelled by a stream of naturals reduced mod
`len(allowedKeys)`, consumed in order: iteration `t` uses samples
`t*minLength ... t*minLength + minLength - 1`. -/
def randStep (stream : Nat → Nat) (t : Nat) (h : Hasher) : Hasher :=
  let n := h.minLength.toNat
  let k := h.allowedKeys.length
  let newPfx :=
    (List.range n).map (fun r => h.allowedKeys.getD (stream (t * n + r) % k) 0)
  { h with buffer := newPfx ++ h.buffer.drop n, tryCnt := h.tryCnt + 1 }

/-- The state of `FindRandom` after its buffer initialization and `t`
mutation passes. -/
def randState (stream : Nat → Nat) (h : Hasher) : Nat → Hasher
  | 0 => initRand h
  | t + 1 => randStep stream t (randState stream h t)

/-- The `FindRandom` main loop with fuel, instrumented with the number of
digest computations and of random samples drawn: returns
`(result, final state, digests, samples)`. -/
def findRandAux (digest : String → List Nat → List Nat) (stream : Nat → Nat) :
    Nat → Nat → Hasher → Option (List Nat) × Hasher × Nat × Nat
  | 0, _, h => (none, h, 0, 0)
  | fuel + 1, t, h =>
    if equals digest h then (some h.buffer, h, 1, 0)
    else
      let r := findRandAux digest stream fuel (t + 1) (randStep stream t h)
      (r.1, r.2.1, r.2.2.1 + 1, r.2.2.2 + h.minLength.toNat)

/-- Embeds `(*Hasher).FindRandom` (part_002): the `reverse` rejection comes
first, before `verify` and before any buffer work; then verify, initialize,
and sample-and-digest until a match.  Returns the result (`none` = fuel
exhausted), the final engine state, and the digest / sample counts. -/
def FindRandom (digest : String → List Nat → List Nat) (stream : Nat → Nat)
    (h : Hasher) (fuel : Nat) :
    Option (Except GoErr (List Nat)) × Hasher × Nat × Nat :=
  if h.reverse then (some (Except.error .reverseRandomMix), h, 0, 0)
  else
    match verify h with
    | some e => (some (Except.error e), h, 0, 0)
    | none =>
      let r := findRandAux digest stream fuel 0 (initRand h)
      ((r.1).map Except.ok, r.2.1, r.2.2.1, r.2.2.2)

/-- The mixed-radix value of a digit list (least-significant digit first),
each digit being a byte read as its index in `keys`. -/
def valueRev (keys : List Nat) : List Nat → Nat
  | [] => 0
  | d :: ds => keys.indexOf d + keys.length * valueRev keys ds

/-- The digit list (least-significant first) of a value, `n` digits over
`keys`. -/
def ofValRev (keys : List Nat) : Nat → Nat → List Nat
  | 0, _ => []
  | n + 1, v => keys.getD (v % keys.length) 0 :: ofValRev keys n (v / keys.length)

/-- The mixed-radix value of a prefix (most-significant digit first, as the
buffer stores it). -/
def prefixValue (keys : List Nat) (p : List Nat) : Nat :=
  valueRev keys p.reverse

/-- The first `keys.length ^ n` candidate prefixes enumerated by
`FindSequential`'s loop (the prefix of the buffer before testing candidate
`i`, for `i = 0, ..., k^n - 1`). -/
def seqVisits (h : Hasher) (n : Nat) : List (List Nat) :=
  (List.range (h.allowedKeys.length ^ n)).map
    (fun i => ((seqStepH)^[i] (initSeq h)).buffer.take n)

/-- Whether the `i`-th candidate tested by `FindSequential`'s loop matches. -/
def seqMatches (digest : String → List Nat → List Nat) (h : Hasher) (i : Nat) : Bool :=
  equals digest ((seqStepH)^[i] (initSeq h))

/-- Modelled from the spec: a stand-in for the external sha1 digest function
(crypto library code, outside this repository), used to instantiate the
`"motom"` scenario.  Like the real function on the tested keyspace it is
collision-free on 5-byte candidates and produces the declared 160-bit
output. -/
def toyDigest : String → List Nat → List Nat :=
  fun _ buf => (buf ++ List.replicate 20 0).take 20

/-- The bytes of the string "motom". -/
def motomBytes : List Nat := [109, 111, 116, 111, 109]

/-- The hasher configuration of the `"motom"` scenario: alphabet `{a,m,o,t}`
(sorted ascending, as `AllowedKeys "mota"` produces), length 5, target digest
equal to the digest of "motom". -/
def motomHasher : Hasher :=
  { algo := "sha1", suffix := [], expected := toyDigest "sha1" motomBytes,
    minLength := 5, maxLength := 5, allowedKeys := [97, 109, 111, 116],
    reverse := false, buffer := [], tryCnt := 0, tick := 0 }

/-- A configuration with a negative `minLength` that is otherwise valid. -/
def negLengthHasher : Hasher :=
  { algo := "md5", suffix := [], expected := List.replicate 16 0,
    minLength := -1, maxLength := -1, allowedKeys := [97],
    reverse := false, buffer := [], tryCnt := 0, tick := 0 }

/-- A configuration with an unknown, non-empty algorithm identifier whose
alphabet is empty (so `verify` fails on the alphabet check first). -/
def emptyKeysUnknownAlgoHasher : Hasher :=
  { algo := "nope", suffix := [], expected := [],
    minLength := 1, maxLength := 1, allowedKeys := [],
    reverse := false, buffer := [], tryCnt := 0, tick := 0 }

/-- A valid configuration with an unknown, non-empty algorithm identifier. -/
def unknownAlgoHasher : Hasher :=
  { algo := "nope", suffix := [], expected := [],
    minLength := 1, maxLength := 1, allowedKeys := [97],
    reverse := false, buffer := [], tryCnt := 0, tick := 0 }

/-- A small valid configuration: alphabet `{a,b}`, length 2, suffix ".",
algorithm md5, target that no candidate matches under `toyDigest`. -/
def abHasher : Hasher :=
  { algo := "md5", suffix := [46], expected := List.replicate 16 1,
    minLength := 2, maxLength := 2, allowedKeys := [97, 98],
    reverse := false, buffer := [], tryCnt := 0, tick := 0 }

/-- `abHasher` with `reverse` set. -/
def abRevHasher : Hasher := { abHasher with reverse := true }

/-- An invalid configuration (empty alphabet) with `reverse` set. -/
def revRandomHasher : Hasher :=
  { algo := "", suffix := [], expected := [],
    minLength := 0, maxLength := 0, allowedKeys := [],
    reverse := true, buffer := [], tryCnt := 0, tick := 0 }

/-! ## Helper lemmas -/

theorem byteArrayLoop_eq (a b : List Nat) (hlen : a.length = b.length) :
    byteArrayLoop a b = true ↔ a = b := by
  induction a generalizing b with
  | nil => cases b <;> simp_all [byteArrayLoop]
  | cons x xs ih =>
    cases b with
    | nil => simp at hlen
    | cons y ys =>
      simp only [byteArrayLoop, bne_iff_ne, ne_eq, ite_not]
      by_cases hxy : x = y
      · subst hxy
        simpa using ih ys (by simpa using hlen)
      · simp [hxy]

theorem byteArrayEquals_eq_decide (a b : List Nat) :
    byteArrayEquals a b = true ↔ a = b := by
  unfold byteArrayEquals
  by_cases hlen : a.length = b.length
  · rw [if_neg (by simp [hlen])]
    exact byteArrayLoop_eq a b hlen
  · rw [if_pos (by simpa using hlen)]
    constructor
    · intro h; cases h
    · intro h; exact absurd (congrArg List.length h) hlen

theorem isByteInSlice_iff (a : Nat) (l : List Nat) :
    isByteInSlice a l = true ↔ a ∈ l := by
  induction l with
  | nil => simp [isByteInSlice]
  | cons b rest ih =>
    by_cases hba : b = a
    · subst hba; simp [isByteInSlice]
    · simp only [isByteInSlice, beq_iff_eq, if_neg hba, ih, List.mem_cons]
      constructor
      · intro h; exact Or.inr h
      · rintro (rfl | h)
        · exact absurd rfl hba
        · exact h

theorem mem_distinctLoop (s res : List Nat) (b : Nat) :
    b ∈ distinctLoop res s ↔ b ∈ res ∨ b ∈ s := by
  induction s generalizing res with
  | nil => simp [distinctLoop]
  | cons c rest ih =>
    by_cases hc : isByteInSlice c res = true
    · have hcr : c ∈ res := (isByteInSlice_iff c res).1 hc
      simp only [distinctLoop, if_pos hc, ih, List.mem_cons]
      constructor
      · rintro (h | h)
        · exact Or.inl h
        · exact Or.inr (Or.inr h)
      · rintro (h | rfl | h)
        · exact Or.inl h
        · exact Or.inl hcr
        · exact Or.inr h
    · simp only [distinctLoop, if_neg hc, ih, List.mem_append, List.mem_singleton,
        List.mem_cons]
      tauto

theorem nodup_distinctLoop (s : List Nat) (res : List Nat) (hres : res.Nodup) :
    (distinctLoop res s).Nodup := by
  induction s generalizing res with
  | nil => simpa [distinctLoop] using hres
  | cons c rest ih =>
    by_cases hc : isByteInSlice c res = true
    · simpa only [distinctLoop, if_pos hc] using ih res hres
    · have hcr : c ∉ res := fun hmem => hc ((isByteInSlice_iff c res).2 hmem)
      have hnd : (res ++ [c]).Nodup := by simp [List.nodup_append, hres, hcr]
      simpa only [distinctLoop, if_neg hc] using ih (res ++ [c]) hnd

theorem strToDistinct_sorted_mem (s : List Nat) :
    (strToDistinctByteSlice s).Sorted (· < ·) ∧
      (∀ b, b ∈ strToDistinctByteSlice s ↔ b ∈ s) := by
  have hperm := List.perm_insertionSort (fun a b : Nat => a ≤ b) (distinctLoop [] s)
  have hnd : (strToDistinctByteSlice s).Nodup :=
    hperm.nodup_iff.2 (nodup_distinctLoop s [] List.nodup_nil)
  have hsorted : (strToDistinctByteSlice s).Sorted (· ≤ ·) :=
    List.sorted_insertionSort (· ≤ ·) (distinctLoop [] s)
  refine ⟨List.Sorted.lt_of_le hsorted hnd, fun b => ?_⟩
  rw [strToDistinctByteSlice, hperm.mem_iff, mem_distinctLoop]
  simp

theorem stringLengthZero (s : String) (h : s.length = 0) : s = "" := by
  obtain ⟨d⟩ := s
  simp only [String.length] at h
  rw [List.length_eq_zero] at h
  subst h
  rfl

theorem sortedNodupEqOfMem {l₁ l₂ : List Nat} (h₁ : l₁.Sorted (· < ·))
    (h₂ : l₂.Sorted (· < ·)) (hmem : ∀ b, b ∈ l₁ ↔ b ∈ l₂) : l₁ = l₂ := by
  haveI : IsAntisymm Nat (· < ·) := ⟨fun a b hab hba => absurd hba (lt_asymm hab)⟩
  exact List.eq_of_perm_of_sorted
    ((List.perm_ext_iff_of_nodup h₁.nodup h₂.nodup).2 hmem) h₁ h₂

/-! ## C8: digest byte comparison -/

/-- C8: `byteArrayEquals` returns true iff the two byte sequences have
identical length and identical bytes at every index; for sequences of
different lengths it returns false (a total function, never an error). -/
theorem byteArrayEquals_spec (a b : List Nat) :
    (byteArrayEquals a b = true ↔
      (a.length = b.length ∧
        ∀ i, ∀ hia : i < a.length, ∀ hib : i < b.length,
          a.get ⟨i, hia⟩ = b.get ⟨i, hib⟩)) ∧
    (a.length ≠ b.length → byteArrayEquals a b = false) := by
  constructor
  · rw [byteArrayEquals_eq_decide, List.ext_get_iff]
  · intro hne
    cases hval : byteArrayEquals a b with
    | false => rfl
    | true => exact absurd (congrArg List.length ((byteArrayEquals_eq_decide a b).1 hval)) hne

/-- Witness for C8 at concrete inputs: equal lists compare true, a
length-mismatched pair compares false. -/
theorem byteArrayEquals_spec_witness :
    ([3, 7].length = [3, 7].length ∧
      ∀ i, ∀ hia : i < [3, 7].length, ∀ hib : i < [3, 7].length,
        [3, 7].get ⟨i, hia⟩ = [3, 7].get ⟨i, hib⟩) ∧
    byteArrayEquals [3, 7] [3, 7, 9] = false := by
  constructor
  · exact (byteArrayEquals_spec [3, 7] [3, 7]).1.1 (by decide)
  · exact (byteArrayEquals_spec [3, 7] [3, 7, 9]).2 (by decide)

/-! ## C6: alphabet normalization -/

/-- C6: alphabet normalization produces the deduplicated ascending-sorted
sequence of the input's distinct bytes (strictly sorted, hence nodup, with
exactly the input's byte membership); it is idempotent; and any two inputs
with the same set of bytes normalize to the identical canonical sequence. -/
theorem strToDistinctByteSlice_spec :
    (∀ s : List Nat,
      (strToDistinctByteSlice s).Sorted (· < ·) ∧
      (strToDistinctByteSlice s).Nodup ∧
      (∀ b, b ∈ strToDistinctByteSlice s ↔ b ∈ s)) ∧
    (∀ s : List Nat,
      strToDistinctByteSlice (strToDistinctByteSlice s) = strToDistinctByteSlice s) ∧
    (∀ s t : List Nat, (∀ b, b ∈ s ↔ b ∈ t) →
      strToDistinctByteSlice s = strToDistinctByteSlice t) := by
  have hbase : ∀ s : List Nat,
      (strToDistinctByteSlice s).Sorted (· < ·) ∧
      (∀ b, b ∈ strToDistinctByteSlice s ↔ b ∈ s) := strToDistinct_sorted_mem
  have hcanon : ∀ s t : List Nat, (∀ b, b ∈ s ↔ b ∈ t) →
      strToDistinctByteSlice s = strToDistinctByteSlice t := by
    intro s t hst
    exact sortedNodupEqOfMem (hbase s).1 (hbase t).1
      (fun b => ((hbase s).2 b).trans ((hst b).trans ((hbase t).2 b).symm))
  refine ⟨fun s => ⟨(hbase s).1, (hbase s).1.nodup, (hbase s).2⟩, fun s => ?_, hcanon⟩
  exact sortedNodupEqOfMem (hbase (strToDistinctByteSlice s)).1 (hbase s).1
    (fun b => (hbase (strToDistinctByteSlice s)).2 b)

/-- Witness for C6: normalizing the bytes of "mota" gives the sorted
alphabet, and a permutation with duplicates ("ttaamo") normalizes to the
identical sequence. -/
theorem strToDistinctByteSlice_spec_witness :
    strToDistinctByteSlice [109, 111, 116, 97] = [97, 109, 111, 116] ∧
    strToDistinctByteSlice [116, 116, 97, 97, 109, 111]
      = strToDistinctByteSlice [109, 111, 116, 97] := by
  constructor
  · decide
  · refine strToDistinctByteSlice_spec.2.2 [116, 116, 97, 97, 109, 111]
      [109, 111, 116, 97] ?_
    intro b
    simp only [List.mem_cons, List.not_mem_nil, or_false]
    omega

/-! ## C4: minLength validation -/

/-- Counterexample to C4 as stated: `negLengthHasher` has `minLength = -1 ≤ 0`
yet `verify` does not fail with the "minLength unset" error — it passes
entirely, because the code checks `minLength == 0`, not `<= 0`. -/
theorem verify_negLength_counterexample :
    negLengthHasher.minLength ≤ 0 ∧
    verify negLengthHasher ≠ some GoErr.minLengthUnset ∧
    verify negLengthHasher = none := by decide

/-- C4 amended: `verify` fails with the "minLength unset" error exactly when
the alphabet is non-empty (that check comes first) and `minLength` equals 0;
negative `minLength` values are not rejected. -/
theorem verify_minLengthUnset_iff (h : Hasher) :
    verify h = some GoErr.minLengthUnset ↔
      h.allowedKeys ≠ [] ∧ h.minLength = 0 := by
  unfold verify
  split_ifs with h1 h2 h3
  · simp only [beq_iff_eq, List.length_eq_zero] at h1
    simp [h1]
  · simp only [beq_iff_eq] at h1 h2
    simp only [List.length_eq_zero] at h1
    simp [h1, h2]
  · simp only [beq_iff_eq] at h2
    simp [h2]
  · simp only [beq_iff_eq] at h2
    split
    · split_ifs
      · simp [h2]
      · simp [h2]
    · simp [h2]

/-! ## C5: unknown algorithm validation -/

/-- Counterexample to C5 as stated: `emptyKeysUnknownAlgoHasher` has a
non-empty algorithm identifier absent from the registry, yet `verify` does
not fail with the "unknown algo" error — the empty-alphabet check fires
first. -/
theorem verify_unknownAlgo_counterexample :
    emptyKeysUnknownAlgoHasher.algo ≠ "" ∧
    algos emptyKeysUnknownAlgoHasher.algo = none ∧
    verify emptyKeysUnknownAlgoHasher
      ≠ some (GoErr.unknownAlgo emptyKeysUnknownAlgoHasher.algo) := by decide

/-- C5 amended: for configurations that pass the earlier checks (non-empty
alphabet, `minLength` not 0, non-empty algorithm identifier), `verify` fails
with the "unknown algo <name>" error iff the algorithm is not in the `algos`
registry. -/
theorem verify_unknownAlgo_iff (h : Hasher) (hk : h.allowedKeys ≠ [])
    (hm : h.minLength ≠ 0) (ha : h.algo ≠ "") :
    verify h = some (GoErr.unknownAlgo h.algo) ↔ algos h.algo = none := by
  have hk' : ¬(h.allowedKeys.length == 0) = true := by
    simpa [List.length_eq_zero] using hk
  have hm' : ¬(h.minLength == 0) = true := by simpa using hm
  have ha' : ¬(h.algo.length == 0) = true := by
    simp only [beq_iff_eq]
    exact fun h0 => ha (stringLengthZero h.algo h0)
  unfold verify
  rw [if_neg hk', if_neg hm', if_neg ha']
  split
  · split_ifs <;> simp_all
  · simp_all

/-- Witness for C5's amended theorem: `unknownAlgoHasher` passes the earlier
checks, its algorithm "nope" is not registered, and `verify` reports exactly
the unknown-algorithm error. -/
theorem verify_unknownAlgo_iff_witness :
    verify unknownAlgoHasher = some (GoErr.unknownAlgo unknownAlgoHasher.algo) :=
  (verify_unknownAlgo_iff unknownAlgoHasher (by decide) (by decide)
    (by decide)).2 (by decide)

/-! ## C7: reverse and random are mutually exclusive -/

/-- C7: for every configuration with `reverse` set, `FindRandom` fails
immediately with the "reverse and random dont mix" error: for every digest
family, random stream and fuel it performs zero digest computations, zero
random samplings, and returns the engine state unchanged — even when the
configuration would also fail validation (the check precedes `verify`). -/
theorem findRandom_reverse_spec (digest : String → List Nat → List Nat)
    (stream : Nat → Nat) (h : Hasher) (fuel : Nat) (hrev : h.reverse = true) :
    FindRandom digest stream h fuel
      = (some (Except.error GoErr.reverseRandomMix), h, 0, 0) := by
  unfold FindRandom
  rw [if_pos hrev]

/-- Witness for C7 at a concrete invalid reversed configuration. -/
theorem findRandom_reverse_spec_witness :
    FindRandom toyDigest (fun i => i) revRandomHasher 9
      = (some (Except.error GoErr.reverseRandomMix), revRandomHasher, 0, 0) :=
  findRandom_reverse_spec toyDigest (fun i => i) revRandomHasher 9 rfl

/-! ## C9: maxLength has no effect -/

theorem verify_setMaxLength (h : Hasher) (m : Int) :
    verify { h with maxLength := m } = verify h := rfl

theorem seqStepH_setMaxLength (h : Hasher) (m : Int) :
    seqStepH { h with maxLength := m } = { seqStepH h with maxLength := m } := rfl

theorem initSeq_setMaxLength (h : Hasher) (m : Int) :
    initSeq { h with maxLength := m } = { initSeq h with maxLength := m } := rfl

theorem equals_setMaxLength (digest : String → List Nat → List Nat)
    (h : Hasher) (m : Int) :
    equals digest { h with maxLength := m } = equals digest h := rfl

theorem seqIter_setMaxLength (h : Hasher) (m : Int) (i : Nat) :
    (seqStepH)^[i] (initSeq { h with maxLength := m })
      = { (seqStepH)^[i] (initSeq h) with maxLength := m } := by
  induction i with
  | zero => simp [initSeq_setMaxLength]
  | succ i ih => rw [Function.iterate_succ_apply', ih, seqStepH_setMaxLength,
      Function.iterate_succ_apply']

theorem findSeqAux_setMaxLength (digest : String → List Nat → List Nat)
    (fuel : Nat) (s : Hasher) (m : Int) :
    findSeqAux digest fuel { s with maxLength := m } = findSeqAux digest fuel s := by
  induction fuel generalizing s with
  | zero => rfl
  | succ fuel ih =>
    unfold findSeqAux
    rw [equals_setMaxLength, seqStepH_setMaxLength, ih]

theorem randStep_setMaxLength (stream : Nat → Nat) (t : Nat) (h : Hasher) (m : Int) :
    randStep stream t { h with maxLength := m }
      = { randStep stream t h with maxLength := m } := rfl

theorem initRand_setMaxLength (h : Hasher) (m : Int) :
    initRand { h with maxLength := m } = { initRand h with maxLength := m } := rfl

theorem randState_setMaxLength (stream : Nat → Nat) (h : Hasher) (m : Int) (t : Nat) :
    randState stream { h with maxLength := m } t
      = { randState stream h t with maxLength := m } := by
  induction t with
  | zero => rfl
  | succ t ih => rw [randState, ih, randStep_setMaxLength, randState]

theorem findRandAux_setMaxLength (digest : String → List Nat → List Nat)
    (stream : Nat → Nat) (fuel t : Nat) (s : Hasher) (m : Int) :
    findRandAux digest stream fuel t { s with maxLength := m }
      = ((findRandAux digest stream fuel t s).1,
         { (findRandAux digest stream fuel t s).2.1 with maxLength := m },
         (findRandAux digest stream fuel t s).2.2) := by
  induction fuel generalizing t s with
  | zero => rfl
  | succ fuel ih =>
    unfold findRandAux
    rw [equals_setMaxLength]
    by_cases he : equals digest s = true
    · simp [he]
    · simp only [he, if_neg, Bool.not_eq_true, ite_false]
      rw [randStep_setMaxLength, ih]

/-- C9: `maxLength` has no effect on search behavior: changing only
`maxLength` leaves the whole `FindSequential` outcome, every buffer of the
sequential enumeration, every buffer of the random sampling (given the same
random source), the `FindRandom` result, its final buffer and try counter,
and its digest/sample counts identical; only `minLength` sizes candidates. -/
theorem maxLength_no_effect (digest : String → List Nat → List Nat)
    (stream : Nat → Nat) (h : Hasher) (m₁ m₂ : Int) (fuel i t : Nat) :
    FindSequential digest { h with maxLength := m₁ } fuel
      = FindSequential digest { h with maxLength := m₂ } fuel ∧
    ((seqStepH)^[i] (initSeq { h with maxLength := m₁ })).buffer
      = ((seqStepH)^[i] (initSeq { h with maxLength := m₂ })).buffer ∧
    (randState stream { h with maxLength := m₁ } t).buffer
      = (randState stream { h with maxLength := m₂ } t).buffer ∧
    (FindRandom digest stream { h with maxLength := m₁ } fuel).1
      = (FindRandom digest stream { h with maxLength := m₂ } fuel).1 ∧
    (FindRandom digest stream { h with maxLength := m₁ } fuel).2.1.buffer
      = (FindRandom digest stream { h with maxLength := m₂ } fuel).2.1.buffer ∧
    (FindRandom digest stream { h with maxLength := m₁ } fuel).2.1.tryCnt
      = (FindRandom digest stream { h with maxLength := m₂ } fuel).2.1.tryCnt ∧
    (FindRandom digest stream { h with maxLength := m₁ } fuel).2.2
      = (FindRandom digest stream { h with maxLength := m₂ } fuel).2.2 := by
  have hseq : ∀ m : Int, FindSequential digest { h with maxLength := m } fuel
      = FindSequential digest h fuel := by
    intro m
    unfold FindSequential
    rw [verify_setMaxLength]
    cases verify h with
    | some e => rfl
    | none => rw [initSeq_setMaxLength, findSeqAux_setMaxLength]
  have hmrev : ({ h with maxLength := m₁ } : Hasher).reverse = h.reverse := rfl
  have hrand : ∀ m : Int, FindRandom digest stream { h with maxLength := m } fuel
      = ((FindRandom digest stream h fuel).1,
         { (FindRandom digest stream h fuel).2.1 with maxLength := m },
         (FindRandom digest stream h fuel).2.2) := by
    intro m
    by_cases hrev : h.reverse = true
    · rw [findRandom_reverse_spec digest stream { h with maxLength := m } fuel hrev,
        findRandom_reverse_spec digest stream h fuel hrev]
    · simp only [Bool.not_eq_true] at hrev
      have hrev' : ({ h with maxLength := m } : Hasher).reverse = false := hrev
      cases hv : verify h with
      | some e =>
        unfold FindRandom
        rw [if_neg (by rw [hrev']; simp), if_neg (by rw [hrev]; simp),
          verify_setMaxLength, hv]
      | none =>
        unfold FindRandom
        rw [if_neg (by rw [hrev']; simp), if_neg (by rw [hrev]; simp),
          verify_setMaxLength, hv]
        simp only [initRand_setMaxLength, findRandAux_setMaxLength]
  refine ⟨by rw [hseq m₁, hseq m₂], ?_, ?_, ?_, ?_, ?_, ?_⟩
  · rw [seqIter_setMaxLength h m₁ i, seqIter_setMaxLength h m₂ i]
  · rw [randState_setMaxLength stream h m₁ t, randState_setMaxLength stream h m₂ t]
  · rw [hrand m₁, hrand m₂]
  · rw [hrand m₁, hrand m₂]
  · rw [hrand m₁, hrand m₂]
  · rw [hrand m₁, hrand m₂]

/-! ## Successor / predecessor scan lemmas -/

theorem getD_mem {keys : List Nat} {i : Nat} (hi : i < keys.length) :
    keys.getD i 0 ∈ keys := by
  rw [List.getD_eq_getElem keys 0 hi]
  exact keys.getElem_mem hi

theorem getD_indexOf {keys : List Nat} {b : Nat} (hb : b ∈ keys) :
    keys.getD (keys.indexOf b) 0 = b := by
  have hlt : keys.indexOf b < keys.length := List.indexOf_lt_length.2 hb
  rw [List.getD_eq_getElem keys 0 hlt]
  exact List.getElem_indexOf hlt

theorem indexOf_getD {keys : List Nat} (hnd : keys.Nodup) {i : Nat}
    (hi : i < keys.length) : keys.indexOf (keys.getD i 0) = i := by
  have hmem : keys.getD i 0 ∈ keys := getD_mem hi
  have hlt : keys.indexOf (keys.getD i 0) < keys.length :=
    List.indexOf_lt_length.2 hmem
  have hget : keys.get ⟨keys.indexOf (keys.getD i 0), hlt⟩ = keys.get ⟨i, hi⟩ := by
    rw [List.indexOf_get hlt, List.get_eq_getElem, ← List.getD_eq_getElem keys 0 hi]
  exact congrArg Fin.val ((hnd.get_inj_iff).1 hget)

theorem indexOf_lt_pred_of_ne_last {keys : List Nat} {b : Nat} (hb : b ∈ keys)
    (hlast : b ≠ keys.getD (keys.length - 1) 0) :
    keys.indexOf b + 1 < keys.length := by
  have hlt : keys.indexOf b < keys.length := List.indexOf_lt_length.2 hb
  rcases Nat.lt_or_ge (keys.indexOf b + 1) keys.length with h | h
  · exact h
  · exfalso
    apply hlast
    have hidx : keys.indexOf b = keys.length - 1 := by omega
    rw [← hidx, getD_indexOf hb]

theorem indexOf_ne_zero_of_ne_head {keys : List Nat} {b : Nat} (hb : b ∈ keys)
    (hhead : b ≠ keys.getD 0 0) : keys.indexOf b ≠ 0 := by
  intro h0
  apply hhead
  rw [← getD_indexOf hb, h0]

theorem nextValAux_flag_true (b : Nat) (l : List Nat) :
    nextValAux b l true = l.headD 48 := by
  cases l <;> simp [nextValAux]

theorem nextValOptAux_flag_true (b : Nat) (l : List Nat) :
    nextValOptAux b l true = l.head? := by
  cases l <;> simp [nextValOptAux]

theorem nextValueFor_eq_getD {keys : List Nat} {b : Nat} (hb : b ∈ keys)
    (hlt : keys.indexOf b + 1 < keys.length) :
    nextValueFor keys b = keys.getD (keys.indexOf b + 1) 0 ∧
    nextValueForOpt keys b = some (keys.getD (keys.indexOf b + 1) 0) := by
  induction keys with
  | nil => cases hb
  | cons x xs ih =>
    by_cases hxb : x = b
    · subst hxb
      rw [List.indexOf_cons_self] at hlt ⊢
      simp only [List.length_cons, List.length_nil] at hlt
      cases xs with
      | nil => simp at hlt
      | cons y ys =>
        constructor
        · show nextValAux x (x :: y :: ys) false = y
          have h1 : nextValAux x (x :: y :: ys) false = nextValAux x (y :: ys) (x == x) := rfl
          rw [h1, beq_self_eq_true, nextValAux_flag_true]
          rfl
        · show nextValOptAux x (x :: y :: ys) false = some y
          have h1 : nextValOptAux x (x :: y :: ys) false
              = nextValOptAux x (y :: ys) (x == x) := rfl
          rw [h1, beq_self_eq_true, nextValOptAux_flag_true]
          rfl
    · have hb' : b ∈ xs := by
        cases List.mem_cons.1 hb with
        | inl h => exact absurd h.symm hxb
        | inr h => exact h
      have hidx : (x :: xs).indexOf b = xs.indexOf b + 1 :=
        List.indexOf_cons_ne xs hxb
      rw [hidx] at hlt ⊢
      simp only [List.length_cons, Nat.add_lt_add_iff_right] at hlt
      have hrec := ih hb' hlt
      have hxbeq : (x == b) = false := by simp [hxb]
      have hgetD : (x :: xs).getD (xs.indexOf b + 1 + 1) 0
          = xs.getD (xs.indexOf b + 1) 0 := rfl
      constructor
      · show nextValAux b (x :: xs) false = _
        have h1 : nextValAux b (x :: xs) false = nextValAux b xs (x == b) := rfl
        rw [h1, hxbeq, hgetD]
        exact hrec.1
      · show nextValOptAux b (x :: xs) false = _
        have h1 : nextValOptAux b (x :: xs) false = nextValOptAux b xs (x == b) := rfl
        rw [h1, hxbeq, hgetD]
        exact hrec.2

theorem prevValAux_eq {keys : List Nat} (b : Nat) (hb : b ∈ keys) :
    ∀ p : Nat, (prevValAux b keys p
        = if keys.indexOf b = 0 then p else keys.getD (keys.indexOf b - 1) 0) ∧
      prevValOptAux b keys p
        = some (if keys.indexOf b = 0 then p else keys.getD (keys.indexOf b - 1) 0) := by
  induction keys with
  | nil => cases hb
  | cons x xs ih =>
    intro p
    by_cases hxb : x = b
    · subst hxb
      rw [List.indexOf_cons_self]
      simp [prevValAux, prevValOptAux]
    · have hb' : b ∈ xs := by
        cases List.mem_cons.1 hb with
        | inl h => exact absurd h.symm hxb
        | inr h => exact h
      have hidx : (x :: xs).indexOf b = xs.indexOf b + 1 :=
        List.indexOf_cons_ne xs hxb
      rw [hidx]
      have hxbeq : (x == b) = false := by simp [hxb]
      have hrec := ih hb' x
      have hgoal : (if xs.indexOf b = 0 then x else xs.getD (xs.indexOf b - 1) 0)
          = (x :: xs).getD (xs.indexOf b + 1 - 1) 0 := by
        by_cases h0 : xs.indexOf b = 0
        · simp [h0]
        · obtain ⟨j, hj⟩ : ∃ j, xs.indexOf b = j + 1 :=
            ⟨xs.indexOf b - 1, by omega⟩
          rw [hj]
          simp
      constructor
      · show prevValAux b (x :: xs) p = _
        have h1 : prevValAux b (x :: xs) p
            = if (x == b) = true then p else prevValAux b xs x := rfl
        rw [h1, hxbeq, if_neg Bool.false_ne_true, hrec.1, hgoal,
          if_neg (Nat.succ_ne_zero _)]
      · show prevValOptAux b (x :: xs) p = _
        have h1 : prevValOptAux b (x :: xs) p
            = if (x == b) = true then some p else prevValOptAux b xs x := rfl
        rw [h1, hxbeq, if_neg Bool.false_ne_true, hrec.2, hgoal,
          if_neg (Nat.succ_ne_zero _)]

theorem prevValueFor_eq_getD {keys : List Nat} {b : Nat} (hb : b ∈ keys)
    (hne : keys.indexOf b ≠ 0) :
    prevValueFor keys b = keys.getD (keys.indexOf b - 1) 0 ∧
    prevValueForOpt keys b = some (keys.getD (keys.indexOf b - 1) 0) := by
  have := prevValAux_eq b hb (keys.getD 0 0)
  constructor
  · show prevValAux b keys (keys.getD 0 0) = _
    rw [this.1, if_neg hne]
  · show prevValOptAux b keys (keys.getD 0 0) = _
    rw [this.2, if_neg hne]

theorem rollAscRev_length (keys : List Nat) (first last : Nat) (ds : List Nat) :
    (rollAscRev keys first last ds).length = ds.length := by
  induction ds with
  | nil => rfl
  | cons x xs ih =>
    by_cases hx : (x == last) = true
    · simp [rollAscRev, hx, ih]
    · simp [rollAscRev, hx]

theorem rollDescRev_length (keys : List Nat) (first last : Nat) (ds : List Nat) :
    (rollDescRev keys first last ds).length = ds.length := by
  induction ds with
  | nil => rfl
  | cons x xs ih =>
    by_cases hx : (x == first) = true
    · simp [rollDescRev, hx, ih]
    · simp [rollDescRev, hx]

theorem rollAscRev_valid {keys : List Nat} (hne : keys ≠ []) {ds : List Nat}
    (hds : ∀ d ∈ ds, d ∈ keys) :
    ∀ d ∈ rollAscRev keys (keys.getD 0 0) (keys.getD (keys.length - 1) 0) ds,
      d ∈ keys := by
  have hlen : 0 < keys.length := List.length_pos.2 hne
  induction ds with
  | nil => intro d hd; cases hd
  | cons x xs ih =>
    have hx : x ∈ keys := hds x (List.mem_cons_self x xs)
    have hxs : ∀ d ∈ xs, d ∈ keys := fun d hd => hds d (List.mem_cons_of_mem x hd)
    by_cases hlast : (x == keys.getD (keys.length - 1) 0) = true
    · intro d hd
      rw [rollAscRev, if_pos hlast] at hd
      cases List.mem_cons.1 hd with
      | inl h => subst h; exact getD_mem hlen
      | inr h => exact ih hxs d h
    · intro d hd
      rw [rollAscRev, if_neg hlast] at hd
      have hxne : x ≠ keys.getD (keys.length - 1) 0 := by simpa using hlast
      have hidx := indexOf_lt_pred_of_ne_last hx hxne
      cases List.mem_cons.1 hd with
      | inl h =>
        subst h
        rw [(nextValueFor_eq_getD hx hidx).1]
        exact getD_mem hidx
      | inr h => exact hxs d h

theorem rollDescRev_valid {keys : List Nat} (hne : keys ≠ []) {ds : List Nat}
    (hds : ∀ d ∈ ds, d ∈ keys) :
    ∀ d ∈ rollDescRev keys (keys.getD 0 0) (keys.getD (keys.length - 1) 0) ds,
      d ∈ keys := by
  have hlen : 0 < keys.length := List.length_pos.2 hne
  induction ds with
  | nil => intro d hd; cases hd
  | cons x xs ih =>
    have hx : x ∈ keys := hds x (List.mem_cons_self x xs)
    have hxs : ∀ d ∈ xs, d ∈ keys := fun d hd => hds d (List.mem_cons_of_mem x hd)
    by_cases hfirst : (x == keys.getD 0 0) = true
    · intro d hd
      rw [rollDescRev, if_pos hfirst] at hd
      cases List.mem_cons.1 hd with
      | inl h => subst h; exact getD_mem (by omega)
      | inr h => exact ih hxs d h
    · intro d hd
      rw [rollDescRev, if_neg hfirst] at hd
      have hxne : x ≠ keys.getD 0 0 := by simpa using hfirst
      have hidx0 := indexOf_ne_zero_of_ne_head hx hxne
      have hlt : keys.indexOf x < keys.length := List.indexOf_lt_length.2 hx
      cases List.mem_cons.1 hd with
      | inl h =>
        subst h
        rw [(prevValueFor_eq_getD hx hidx0).1]
        exact getD_mem (by omega)
      | inr h => exact hxs d h

theorem rollAscRevOpt_eq {keys : List Nat} {ds : List Nat}
    (hds : ∀ d ∈ ds, d ∈ keys) :
    rollAscRevOpt keys (keys.getD 0 0) (keys.getD (keys.length - 1) 0) ds
      = some (rollAscRev keys (keys.getD 0 0) (keys.getD (keys.length - 1) 0) ds) := by
  induction ds with
  | nil => rfl
  | cons x xs ih =>
    have hx : x ∈ keys := hds x (List.mem_cons_self x xs)
    have hxs : ∀ d ∈ xs, d ∈ keys := fun d hd => hds d (List.mem_cons_of_mem x hd)
    by_cases hlast : (x == keys.getD (keys.length - 1) 0) = true
    · rw [rollAscRevOpt, rollAscRev, if_pos hlast, if_pos hlast, ih hxs, Option.map_some']
    · have hxne : x ≠ keys.getD (keys.length - 1) 0 := by simpa using hlast
      have hidx := indexOf_lt_pred_of_ne_last hx hxne
      have hnext := nextValueFor_eq_getD hx hidx
      rw [rollAscRevOpt, rollAscRev, if_neg hlast, if_neg hlast, hnext.2, Option.map_some', hnext.1]

theorem rollDescRevOpt_eq {keys : List Nat} {ds : List Nat}
    (hds : ∀ d ∈ ds, d ∈ keys) :
    rollDescRevOpt keys (keys.getD 0 0) (keys.getD (keys.length - 1) 0) ds
      = some (rollDescRev keys (keys.getD 0 0) (keys.getD (keys.length - 1) 0) ds) := by
  induction ds with
  | nil => rfl
  | cons x xs ih =>
    have hx : x ∈ keys := hds x (List.mem_cons_self x xs)
    have hxs : ∀ d ∈ xs, d ∈ keys := fun d hd => hds d (List.mem_cons_of_mem x hd)
    by_cases hfirst : (x == keys.getD 0 0) = true
    · rw [rollDescRevOpt, rollDescRev, if_pos hfirst, if_pos hfirst, ih hxs, Option.map_some']
    · have hxne : x ≠ keys.getD 0 0 := by simpa using hfirst
      have hidx0 := indexOf_ne_zero_of_ne_head hx hxne
      have hprev := prevValueFor_eq_getD hx hidx0
      rw [rollDescRevOpt, rollDescRev, if_neg hfirst, if_neg hfirst, hprev.2, Option.map_some', hprev.1]

/-! ## C10: successor/predecessor correctness, fallbacks unreachable -/

/-- C10: for a sorted alphabet, `nextValueFor` on a member that is not the
last element returns the element immediately following it (the one at the
next index), an alphabet member; symmetrically `prevValueFor` on a member
that is not the first element returns the immediately preceding element; and
in the `FindSequential` step loop the fallback returns of both scans are
unreachable: on any prefix of alphabet members the rollers only invoke them
on members distinct from the wrap value, where the scan provably returns from
inside the loop (the `Opt` variants return `some`). -/
theorem nextValueFor_spec (keys : List Nat) (hs : keys.Sorted (· < ·))
    (hne : keys ≠ []) :
    (∀ b ∈ keys, b ≠ keys.getD (keys.length - 1) 0 →
      nextValueFor keys b = keys.getD (keys.indexOf b + 1) 0 ∧
      keys.indexOf (nextValueFor keys b) = keys.indexOf b + 1 ∧
      nextValueFor keys b ∈ keys ∧
      nextValueForOpt keys b = some (nextValueFor keys b)) ∧
    (∀ b ∈ keys, b ≠ keys.getD 0 0 →
      prevValueFor keys b = keys.getD (keys.indexOf b - 1) 0 ∧
      keys.indexOf (prevValueFor keys b) = keys.indexOf b - 1 ∧
      prevValueFor keys b ∈ keys ∧
      prevValueForOpt keys b = some (prevValueFor keys b)) ∧
    (∀ ds : List Nat, (∀ d ∈ ds, d ∈ keys) →
      rollAscRevOpt keys (keys.getD 0 0) (keys.getD (keys.length - 1) 0) ds
        = some (rollAscRev keys (keys.getD 0 0) (keys.getD (keys.length - 1) 0) ds) ∧
      rollDescRevOpt keys (keys.getD 0 0) (keys.getD (keys.length - 1) 0) ds
        = some (rollDescRev keys (keys.getD 0 0) (keys.getD (keys.length - 1) 0) ds)) := by
  refine ⟨fun b hb hbl => ?_, fun b hb hbf => ?_,
    fun ds hds => ⟨rollAscRevOpt_eq hds, rollDescRevOpt_eq hds⟩⟩
  · have hidx := indexOf_lt_pred_of_ne_last hb hbl
    have hnext := nextValueFor_eq_getD hb hidx
    refine ⟨hnext.1, ?_, ?_, ?_⟩
    · rw [hnext.1]
      exact indexOf_getD hs.nodup hidx
    · rw [hnext.1]
      exact getD_mem hidx
    · rw [hnext.2, hnext.1]
  · have hidx0 := indexOf_ne_zero_of_ne_head hb hbf
    have hlt : keys.indexOf b < keys.length := List.indexOf_lt_length.2 hb
    have hprev := prevValueFor_eq_getD hb hidx0
    refine ⟨hprev.1, ?_, ?_, ?_⟩
    · rw [hprev.1]
      exact indexOf_getD hs.nodup (by omega)
    · rw [hprev.1]
      exact getD_mem (by omega)
    · rw [hprev.2, hprev.1]

/-- Witness for C10 on the sorted alphabet of "mota": the successor of 'm' is
'o', the predecessor of 'o' is 'm', and the rollers never hit a fallback on
the all-alphabet prefix of "motom". -/
theorem nextValueFor_spec_witness :
    nextValueFor [97, 109, 111, 116] 109 = 111 ∧
    prevValueFor [97, 109, 111, 116] 111 = 109 ∧
    rollAscRevOpt [97, 109, 111, 116] 97 116 [109, 111, 116, 111, 109]
      = some (rollAscRev [97, 109, 111, 116] 97 116 [109, 111, 116, 111, 109]) := by
  have h := nextValueFor_spec [97, 109, 111, 116] (by decide) (by decide)
  refine ⟨?_, ?_, ?_⟩
  · have := (h.1 109 (by decide) (by decide)).1
    simpa using this
  · have := (h.2.1 111 (by decide) (by decide)).1
    simpa using this
  · exact (h.2.2 [109, 111, 116, 111, 109] (by decide)).1

/-! ## Mixed-radix value of the odometer -/

theorem valueRev_lt {keys : List Nat} (hne : keys ≠ []) {ds : List Nat}
    (hds : ∀ d ∈ ds, d ∈ keys) :
    valueRev keys ds < keys.length ^ ds.length := by
  induction ds with
  | nil => simpa [valueRev] using Nat.one_pos
  | cons x xs ih =>
    have hx : keys.indexOf x < keys.length :=
      List.indexOf_lt_length.2 (hds x (List.mem_cons_self x xs))
    have hxs := ih (fun d hd => hds d (List.mem_cons_of_mem x hd))
    show keys.indexOf x + keys.length * valueRev keys xs
        < keys.length ^ (xs.length + 1)
    have h1 : keys.indexOf x + keys.length * valueRev keys xs
        < keys.length * (valueRev keys xs + 1) := by
      rw [Nat.mul_add, Nat.mul_one]
      omega
    have h2 : keys.length * (valueRev keys xs + 1)
        ≤ keys.length * keys.length ^ xs.length :=
      Nat.mul_le_mul_left _ hxs
    rw [pow_succ, mul_comm (keys.length ^ xs.length) keys.length]
    omega

theorem valueRev_append_single (keys : List Nat) (ds : List Nat) (d : Nat) :
    valueRev keys (ds ++ [d])
      = valueRev keys ds + keys.indexOf d * keys.length ^ ds.length := by
  induction ds with
  | nil => simp [valueRev]
  | cons x xs ih =>
    show keys.indexOf x + keys.length * valueRev keys (xs ++ [d]) = _
    rw [ih]
    show _ = keys.indexOf x + keys.length * valueRev keys xs
        + keys.indexOf d * keys.length ^ (xs.length + 1)
    rw [pow_succ]
    ring

theorem prefixValue_cons (keys : List Nat) (x : Nat) (xs : List Nat) :
    prefixValue keys (x :: xs)
      = keys.indexOf x * keys.length ^ xs.length + prefixValue keys xs := by
  unfold prefixValue
  rw [List.reverse_cons, valueRev_append_single]
  rw [List.length_reverse]
  omega

theorem valueRev_replicate_head (keys : List Nat) (m : Nat) :
    valueRev keys (List.replicate m (keys.getD 0 0)) = 0 := by
  induction m with
  | zero => rfl
  | succ m ih =>
    show keys.indexOf (keys.getD 0 0) + keys.length
        * valueRev keys (List.replicate m (keys.getD 0 0)) = 0
    rw [ih, Nat.mul_zero, Nat.add_zero]
    cases keys with
    | nil => rfl
    | cons y ys => simp [List.indexOf_cons_self]

theorem valueRev_replicate_last {keys : List Nat} (hs : keys.Sorted (· < ·))
    (hne : keys ≠ []) (m : Nat) :
    valueRev keys (List.replicate m (keys.getD (keys.length - 1) 0))
      = keys.length ^ m - 1 := by
  have hlen : 0 < keys.length := List.length_pos.2 hne
  have hidx : keys.indexOf (keys.getD (keys.length - 1) 0) = keys.length - 1 :=
    indexOf_getD hs.nodup (by omega)
  induction m with
  | zero => simp [valueRev]
  | succ m ih =>
    show keys.indexOf (keys.getD (keys.length - 1) 0) + keys.length
        * valueRev keys (List.replicate m (keys.getD (keys.length - 1) 0))
        = keys.length ^ (m + 1) - 1
    rw [ih, hidx, pow_succ]
    have hpow : 1 ≤ keys.length ^ m := Nat.one_le_pow m keys.length hlen
    have hab : keys.length * (keys.length ^ m - 1) + keys.length
        = keys.length * keys.length ^ m := by
      have h1 : keys.length * ((keys.length ^ m - 1) + 1)
          = keys.length * keys.length ^ m := by
        rw [Nat.sub_add_cancel hpow]
      rw [Nat.mul_add, Nat.mul_one] at h1
      omega
    have hc : keys.length ^ m * keys.length = keys.length * keys.length ^ m :=
      mul_comm _ _
    omega

theorem rollAscRev_value {keys : List Nat} (hs : keys.Sorted (· < ·))
    (hne : keys ≠ []) {ds : List Nat} (hds : ∀ d ∈ ds, d ∈ keys) :
    valueRev keys (rollAscRev keys (keys.getD 0 0) (keys.getD (keys.length - 1) 0) ds)
      = (valueRev keys ds + 1) % keys.length ^ ds.length := by
  have hlen : 0 < keys.length := List.length_pos.2 hne
  induction ds with
  | nil => simp [rollAscRev, valueRev]
  | cons x xs ih =>
    have hx : x ∈ keys := hds x (List.mem_cons_self x xs)
    have hxlt : keys.indexOf x < keys.length := List.indexOf_lt_length.2 hx
    have hxs : ∀ d ∈ xs, d ∈ keys := fun d hd => hds d (List.mem_cons_of_mem x hd)
    have hvxs := valueRev_lt hne hxs
    have hvcons : valueRev keys (x :: xs)
        = keys.indexOf x + keys.length * valueRev keys xs := rfl
    by_cases hlast : (x == keys.getD (keys.length - 1) 0) = true
    · have hxeq : x = keys.getD (keys.length - 1) 0 := by simpa using hlast
      have hidx : keys.indexOf x = keys.length - 1 := by
        rw [hxeq]
        exact indexOf_getD hs.nodup (by omega)
      have hidx0 : keys.indexOf (keys.getD 0 0) = 0 := indexOf_getD hs.nodup hlen
      rw [rollAscRev, if_pos hlast]
      have hL : valueRev keys (keys.getD 0 0 ::
            rollAscRev keys (keys.getD 0 0) (keys.getD (keys.length - 1) 0) xs)
          = keys.length * ((valueRev keys xs + 1) % keys.length ^ xs.length) := by
        show keys.indexOf (keys.getD 0 0) + keys.length * valueRev keys
            (rollAscRev keys (keys.getD 0 0) (keys.getD (keys.length - 1) 0) xs)
            = _
        rw [hidx0, ih hxs, Nat.zero_add]
      rw [hL, hvcons, List.length_cons, pow_succ', hidx]
      have harith : keys.length - 1 + keys.length * valueRev keys xs + 1
          = keys.length * (valueRev keys xs + 1) := by
        rw [Nat.mul_add, Nat.mul_one]
        omega
      rw [harith, Nat.mul_mod_mul_left]
    · have hxne : x ≠ keys.getD (keys.length - 1) 0 := by simpa using hlast
      have hsucc := indexOf_lt_pred_of_ne_last hx hxne
      have hnext := nextValueFor_eq_getD hx hsucc
      have hidxn : keys.indexOf (nextValueFor keys x) = keys.indexOf x + 1 := by
        rw [hnext.1]
        exact indexOf_getD hs.nodup hsucc
      rw [rollAscRev, if_neg hlast]
      have hL : valueRev keys (nextValueFor keys x :: xs)
          = keys.indexOf x + 1 + keys.length * valueRev keys xs := by
        show keys.indexOf (nextValueFor keys x) + keys.length * valueRev keys xs = _
        rw [hidxn]
      rw [hL, hvcons, List.length_cons, pow_succ']
      have hmul : keys.length * valueRev keys xs + keys.length
          ≤ keys.length * keys.length ^ xs.length := by
        have h1 : keys.length * (valueRev keys xs + 1)
            ≤ keys.length * keys.length ^ xs.length :=
          Nat.mul_le_mul_left keys.length hvxs
        rw [Nat.mul_add, Nat.mul_one] at h1
        exact h1
      rw [Nat.mod_eq_of_lt (by omega)]
      omega

theorem rollDescRev_value {keys : List Nat} (hs : keys.Sorted (· < ·))
    (hne : keys ≠ []) {ds : List Nat} (hds : ∀ d ∈ ds, d ∈ keys) :
    valueRev keys (rollDescRev keys (keys.getD 0 0) (keys.getD (keys.length - 1) 0) ds)
      = if valueRev keys ds = 0 then keys.length ^ ds.length - 1
        else valueRev keys ds - 1 := by
  have hlen : 0 < keys.length := List.length_pos.2 hne
  induction ds with
  | nil => simp [rollDescRev, valueRev]
  | cons x xs ih =>
    have hx : x ∈ keys := hds x (List.mem_cons_self x xs)
    have hxlt : keys.indexOf x < keys.length := List.indexOf_lt_length.2 hx
    have hxs : ∀ d ∈ xs, d ∈ keys := fun d hd => hds d (List.mem_cons_of_mem x hd)
    have hvxs := valueRev_lt hne hxs
    have hpow : 1 ≤ keys.length ^ xs.length := Nat.one_le_pow _ _ hlen
    have hvcons : valueRev keys (x :: xs)
        = keys.indexOf x + keys.length * valueRev keys xs := rfl
    by_cases hfirst : (x == keys.getD 0 0) = true
    · have hxeq : x = keys.getD 0 0 := by simpa using hfirst
      have hidx : keys.indexOf x = 0 := by
        rw [hxeq]
        exact indexOf_getD hs.nodup hlen
      have hidxl : keys.indexOf (keys.getD (keys.length - 1) 0) = keys.length - 1 :=
        indexOf_getD hs.nodup (by omega)
      rw [rollDescRev, if_pos hfirst]
      have hL : valueRev keys (keys.getD (keys.length - 1) 0 ::
            rollDescRev keys (keys.getD 0 0) (keys.getD (keys.length - 1) 0) xs)
          = keys.length - 1 + keys.length *
            (if valueRev keys xs = 0 then keys.length ^ xs.length - 1
             else valueRev keys xs - 1) := by
        show keys.indexOf (keys.getD (keys.length - 1) 0) + keys.length * valueRev keys
            (rollDescRev keys (keys.getD 0 0) (keys.getD (keys.length - 1) 0) xs)
            = _
        rw [hidxl, ih hxs]
      rw [hL, hvcons, hidx, Nat.zero_add, List.length_cons, pow_succ']
      by_cases hv0 : valueRev keys xs = 0
      · rw [hv0, if_pos rfl, Nat.mul_zero, if_pos rfl]
        have h1 : keys.length * (keys.length ^ xs.length - 1) + keys.length
            = keys.length * keys.length ^ xs.length := by
          have h2 : keys.length * ((keys.length ^ xs.length - 1) + 1)
              = keys.length * keys.length ^ xs.length := by
            rw [Nat.sub_add_cancel hpow]
          rw [Nat.mul_add, Nat.mul_one] at h2
          omega
        omega
      · rw [if_neg hv0, if_neg (Nat.mul_ne_zero (by omega) hv0)]
        have h1 : keys.length * (valueRev keys xs - 1) + keys.length
            = keys.length * valueRev keys xs := by
          have h2 : keys.length * ((valueRev keys xs - 1) + 1)
              = keys.length * valueRev keys xs := by
            rw [Nat.sub_add_cancel (by omega)]
          rw [Nat.mul_add, Nat.mul_one] at h2
          omega
        omega
    · have hxne : x ≠ keys.getD 0 0 := by simpa using hfirst
      have hidx0 := indexOf_ne_zero_of_ne_head hx hxne
      have hprev := prevValueFor_eq_getD hx hidx0
      have hidxp : keys.indexOf (prevValueFor keys x) = keys.indexOf x - 1 := by
        rw [hprev.1]
        exact indexOf_getD hs.nodup (by omega)
      rw [rollDescRev, if_neg hfirst]
      have hL : valueRev keys (prevValueFor keys x :: xs)
          = keys.indexOf x - 1 + keys.length * valueRev keys xs := by
        show keys.indexOf (prevValueFor keys x) + keys.length * valueRev keys xs = _
        rw [hidxp]
      rw [hL, hvcons, if_neg (by omega)]
      omega

theorem valueRev_inj {keys : List Nat} (hnd : keys.Nodup) :
    ∀ ds es : List Nat, (∀ d ∈ ds, d ∈ keys) → (∀ d ∈ es, d ∈ keys) →
      ds.length = es.length → valueRev keys ds = valueRev keys es → ds = es := by
  intro ds
  induction ds with
  | nil =>
    intro es _ _ hlen _
    cases es with
    | nil => rfl
    | cons y ys => simp at hlen
  | cons x xs ih =>
    intro es hds hes hlen hval
    cases es with
    | nil => simp at hlen
    | cons y ys =>
      have hx : keys.indexOf x < keys.length :=
        List.indexOf_lt_length.2 (hds x (List.mem_cons_self x xs))
      have hy : keys.indexOf y < keys.length :=
        List.indexOf_lt_length.2 (hes y (List.mem_cons_self y ys))
      have hval' : keys.indexOf x + keys.length * valueRev keys xs
          = keys.indexOf y + keys.length * valueRev keys ys := hval
      have hmod : keys.indexOf x = keys.indexOf y := by
        have h1 : (keys.indexOf x + keys.length * valueRev keys xs) % keys.length
            = keys.indexOf x := by
          rw [Nat.add_mul_mod_self_left, Nat.mod_eq_of_lt hx]
        have h2 : (keys.indexOf y + keys.length * valueRev keys ys) % keys.length
            = keys.indexOf y := by
          rw [Nat.add_mul_mod_self_left, Nat.mod_eq_of_lt hy]
        rw [← h1, ← h2, hval']
      have hxy : x = y := by
        have := List.indexOf_inj (hds x (List.mem_cons_self x xs))
          (hes y (List.mem_cons_self y ys))
        exact this.1 hmod
      have hrest : valueRev keys xs = valueRev keys ys := by
        have hk : 0 < keys.length := by omega
        have : keys.length * valueRev keys xs = keys.length * valueRev keys ys := by
          omega
        exact Nat.eq_of_mul_eq_mul_left hk this
      rw [hxy, ih ys (fun d hd => hds d (List.mem_cons_of_mem x hd))
        (fun d hd => hes d (List.mem_cons_of_mem y hd)) (by simpa using hlen) hrest]

theorem ofValRev_spec {keys : List Nat} (hnd : keys.Nodup) (hne : keys ≠ []) :
    ∀ (n v : Nat), v < keys.length ^ n →
      (ofValRev keys n v).length = n ∧
      (∀ d ∈ ofValRev keys n v, d ∈ keys) ∧
      valueRev keys (ofValRev keys n v) = v := by
  have hlen : 0 < keys.length := List.length_pos.2 hne
  intro n
  induction n with
  | zero =>
    intro v hv
    have : v = 0 := by simpa using hv
    subst this
    exact ⟨rfl, fun d hd => absurd hd (List.not_mem_nil d), rfl⟩
  | succ n ih =>
    intro v hv
    have hmod : v % keys.length < keys.length := Nat.mod_lt v hlen
    have hdiv : v / keys.length < keys.length ^ n := by
      rw [Nat.div_lt_iff_lt_mul hlen]
      rw [pow_succ] at hv
      exact hv
    obtain ⟨ihl, ihm, ihv⟩ := ih (v / keys.length) hdiv
    refine ⟨by simpa [ofValRev] using ihl, ?_, ?_⟩
    · intro d hd
      rw [ofValRev] at hd
      cases List.mem_cons.1 hd with
      | inl h => subst h; exact getD_mem hmod
      | inr h => exact ihm d h
    · show keys.indexOf (keys.getD (v % keys.length) 0) + keys.length
          * valueRev keys (ofValRev keys n (v / keys.length)) = v
      rw [indexOf_getD hnd hmod, ihv, Nat.mod_add_div v keys.length]

/-! ## Lexicographic order versus mixed-radix value -/

theorem lex_cons_iff_general {x y : Nat} {xs ys : List Nat} :
    List.Lex (· < ·) (x :: xs) (y :: ys)
      ↔ x < y ∨ (x = y ∧ List.Lex (· < ·) xs ys) := by
  constructor
  · intro h
    cases h with
    | cons h => exact Or.inr ⟨rfl, h⟩
    | rel h => exact Or.inl h
  · rintro (h | ⟨rfl, h⟩)
    · exact List.Lex.rel h
    · exact List.Lex.cons h

theorem indexOf_lt_indexOf {keys : List Nat} (hs : keys.Sorted (· < ·))
    {a b : Nat} (ha : a ∈ keys) (hb : b ∈ keys) :
    a < b ↔ keys.indexOf a < keys.indexOf b := by
  have hal : keys.indexOf a < keys.length := List.indexOf_lt_length.2 ha
  have hbl : keys.indexOf b < keys.length := List.indexOf_lt_length.2 hb
  have hga : keys.get ⟨keys.indexOf a, hal⟩ = a := List.indexOf_get hal
  have hgb : keys.get ⟨keys.indexOf b, hbl⟩ = b := List.indexOf_get hbl
  constructor
  · intro hab
    rcases Nat.lt_trichotomy (keys.indexOf a) (keys.indexOf b) with h | h | h
    · exact h
    · exfalso
      have : a = b := by
        rw [← hga, ← hgb]
        exact congrArg keys.get (Fin.ext h)
      omega
    · exfalso
      have hba : keys.get ⟨keys.indexOf b, hbl⟩ < keys.get ⟨keys.indexOf a, hal⟩ :=
        hs.rel_get_of_lt (by exact h)
      rw [hga, hgb] at hba
      omega
  · intro hij
    have := hs.rel_get_of_lt
      (show (⟨keys.indexOf a, hal⟩ : Fin keys.length) < ⟨keys.indexOf b, hbl⟩ from hij)
    rwa [hga, hgb] at this

theorem prefixValue_lt {keys : List Nat} (hne : keys ≠ []) {p : List Nat}
    (hp : ∀ d ∈ p, d ∈ keys) : prefixValue keys p < keys.length ^ p.length := by
  have := valueRev_lt hne (fun d hd => hp d (List.mem_reverse.1 hd))
  rwa [List.length_reverse] at this

theorem lex_iff_prefixValue {keys : List Nat} (hs : keys.Sorted (· < ·))
    (hne : keys ≠ []) :
    ∀ p q : List Nat, (∀ d ∈ p, d ∈ keys) → (∀ d ∈ q, d ∈ keys) →
      p.length = q.length →
      (List.Lex (· < ·) p q ↔ prefixValue keys p < prefixValue keys q) := by
  intro p
  induction p with
  | nil =>
    intro q _ _ hlen
    have : q = [] := by
      cases q with
      | nil => rfl
      | cons y ys => simp at hlen
    subst this
    simp
  | cons x xs ih =>
    intro q hp hq hlen
    cases q with
    | nil => simp at hlen
    | cons y ys =>
      have hxk : x ∈ keys := hp x (List.mem_cons_self x xs)
      have hyk : y ∈ keys := hq y (List.mem_cons_self y ys)
      have hxs : ∀ d ∈ xs, d ∈ keys := fun d hd => hp d (List.mem_cons_of_mem x hd)
      have hys : ∀ d ∈ ys, d ∈ keys := fun d hd => hq d (List.mem_cons_of_mem y hd)
      have hlen' : xs.length = ys.length := by simpa using hlen
      have hvx := prefixValue_lt hne hxs
      have hvy := prefixValue_lt hne hys
      rw [prefixValue_cons, prefixValue_cons, lex_cons_iff_general, hlen']
      have hcross : ∀ a b : Nat, a ∈ keys → b ∈ keys →
          keys.indexOf a < keys.indexOf b →
          ∀ va vb : Nat, va < keys.length ^ ys.length → vb < keys.length ^ ys.length →
          keys.indexOf a * keys.length ^ ys.length + va
            < keys.indexOf b * keys.length ^ ys.length + vb := by
        intro a b hak hbk hab va vb hva hvb
        have h1 : keys.indexOf a * keys.length ^ ys.length + keys.length ^ ys.length
            = (keys.indexOf a + 1) * keys.length ^ ys.length := by ring
        have h2 : (keys.indexOf a + 1) * keys.length ^ ys.length
            ≤ keys.indexOf b * keys.length ^ ys.length :=
          Nat.mul_le_mul_right _ hab
        omega
      rw [hlen'] at hvx
      constructor
      · rintro (hxy | ⟨rfl, htail⟩)
        · exact hcross x y hxk hyk ((indexOf_lt_indexOf hs hxk hyk).1 hxy)
            _ _ hvx hvy
        · have := (ih ys hxs hys hlen').1 htail
          omega
      · intro hval
        rcases Nat.lt_trichotomy x y with hxy | rfl | hyx
        · exact Or.inl hxy
        · refine Or.inr ⟨rfl, (ih ys hxs hys hlen').2 (by omega)⟩
        · exfalso
          have := hcross y x hyk hxk ((indexOf_lt_indexOf hs hyk hxk).1 hyx)
            _ _ hvy hvx
          omega

/-! ## The sequential enumeration, state by state -/

theorem seqIter_fields (h : Hasher) (i : Nat) :
    ((seqStepH)^[i] h).allowedKeys = h.allowedKeys ∧
    ((seqStepH)^[i] h).minLength = h.minLength ∧
    ((seqStepH)^[i] h).reverse = h.reverse ∧
    ((seqStepH)^[i] h).suffix = h.suffix ∧
    ((seqStepH)^[i] h).algo = h.algo ∧
    ((seqStepH)^[i] h).expected = h.expected := by
  induction i with
  | zero => exact ⟨rfl, rfl, rfl, rfl, rfl, rfl⟩
  | succ i ih =>
    rw [Function.iterate_succ_apply']
    obtain ⟨h1, h2, h3, h4, h5, h6⟩ := ih
    exact ⟨h1, h2, h3, h4, h5, h6⟩

theorem initSeq_fields (h : Hasher) :
    (initSeq h).allowedKeys = h.allowedKeys ∧
    (initSeq h).minLength = h.minLength ∧
    (initSeq h).reverse = h.reverse ∧
    (initSeq h).suffix = h.suffix ∧
    (initSeq h).algo = h.algo ∧
    (initSeq h).expected = h.expected :=
  ⟨rfl, rfl, rfl, rfl, rfl, rfl⟩

theorem seqStepH_buffer {h : Hasher} {p rest : List Nat}
    (hbuf : h.buffer = p ++ rest) (hlen : p.length = h.minLength.toNat) :
    (seqStepH h).buffer =
      (if h.reverse then
        (rollDescRev h.allowedKeys (h.allowedKeys.getD 0 0)
          (h.allowedKeys.getD (h.allowedKeys.length - 1) 0) p.reverse).reverse
       else
        (rollAscRev h.allowedKeys (h.allowedKeys.getD 0 0)
          (h.allowedKeys.getD (h.allowedKeys.length - 1) 0) p.reverse).reverse)
      ++ rest := by
  simp only [seqStepH]
  rw [hbuf, ← hlen, List.take_left, List.drop_left]

theorem initSeq_buffer_asc {h : Hasher} (hrev : h.reverse = false) :
    (initSeq h).buffer
      = List.replicate h.minLength.toNat (h.allowedKeys.getD 0 0) ++ h.suffix := by
  simp only [initSeq, hrev, Bool.false_eq_true, if_false]

theorem initSeq_buffer_desc {h : Hasher} (hrev : h.reverse = true) :
    (initSeq h).buffer
      = List.replicate h.minLength.toNat
          (h.allowedKeys.getD (h.allowedKeys.length - 1) 0) ++ h.suffix := by
  simp only [initSeq, hrev, if_true]

theorem seq_iter_asc {h : Hasher} (hs : h.allowedKeys.Sorted (· < ·))
    (hne : h.allowedKeys ≠ []) (hrev : h.reverse = false) (i : Nat) :
    (((seqStepH)^[i] (initSeq h)).buffer.take h.minLength.toNat).length
        = h.minLength.toNat ∧
    (∀ d ∈ ((seqStepH)^[i] (initSeq h)).buffer.take h.minLength.toNat,
        d ∈ h.allowedKeys) ∧
    ((seqStepH)^[i] (initSeq h)).buffer
        = ((seqStepH)^[i] (initSeq h)).buffer.take h.minLength.toNat ++ h.suffix ∧
    prefixValue h.allowedKeys
        (((seqStepH)^[i] (initSeq h)).buffer.take h.minLength.toNat)
      = i % h.allowedKeys.length ^ h.minLength.toNat := by
  induction i with
  | zero =>
    have hbuf := initSeq_buffer_asc hrev
    have hlenrep : (List.replicate h.minLength.toNat (h.allowedKeys.getD 0 0)).length
        = h.minLength.toNat := List.length_replicate _ _
    have htake : (initSeq h).buffer.take h.minLength.toNat
        = List.replicate h.minLength.toNat (h.allowedKeys.getD 0 0) := by
      rw [hbuf, List.take_left' hlenrep]
    rw [Function.iterate_zero_apply, htake]
    refine ⟨hlenrep, ?_, ?_, ?_⟩
    · intro d hd
      rw [List.eq_of_mem_replicate hd]
      exact getD_mem (List.length_pos.2 hne)
    · rw [hbuf]
    · rw [prefixValue, List.reverse_replicate, valueRev_replicate_head, Nat.zero_mod]
  | succ i ih =>
    obtain ⟨ihlen, ihvalid, ihsplit, ihval⟩ := ih
    obtain ⟨hfk, hfm, hfr, hfs, _, _⟩ :=
      seqIter_fields (initSeq h) i
    set s := (seqStepH)^[i] (initSeq h) with hsdef
    set p := s.buffer.take h.minLength.toNat with hpdef
    have hsm : s.minLength = h.minLength := hfm
    have hsk : s.allowedKeys = h.allowedKeys := hfk
    have hsr : s.reverse = false := by rw [hfr]; exact hrev
    have hstep : (seqStepH s).buffer =
        (rollAscRev h.allowedKeys (h.allowedKeys.getD 0 0)
          (h.allowedKeys.getD (h.allowedKeys.length - 1) 0) p.reverse).reverse
        ++ h.suffix := by
      have := seqStepH_buffer
        ihsplit (by rw [hsm]; exact ihlen)
      rw [this, hsr, hsk]
      simp only [Bool.false_eq_true, if_false]
    have hrolllen : ((rollAscRev h.allowedKeys (h.allowedKeys.getD 0 0)
        (h.allowedKeys.getD (h.allowedKeys.length - 1) 0) p.reverse).reverse).length
        = h.minLength.toNat := by
      rw [List.length_reverse, rollAscRev_length, List.length_reverse]
      exact ihlen
    have hpvalidrev : ∀ d ∈ p.reverse, d ∈ h.allowedKeys :=
      fun d hd => ihvalid d (List.mem_reverse.1 hd)
    have hrollvalid : ∀ d ∈ (rollAscRev h.allowedKeys (h.allowedKeys.getD 0 0)
        (h.allowedKeys.getD (h.allowedKeys.length - 1) 0) p.reverse).reverse,
        d ∈ h.allowedKeys := by
      intro d hd
      exact rollAscRev_valid hne hpvalidrev d (List.mem_reverse.1 hd)
    have htake : (seqStepH s).buffer.take h.minLength.toNat
        = (rollAscRev h.allowedKeys (h.allowedKeys.getD 0 0)
          (h.allowedKeys.getD (h.allowedKeys.length - 1) 0) p.reverse).reverse := by
      rw [hstep, List.take_left' hrolllen]
    rw [Function.iterate_succ_apply', ← hsdef, htake]
    refine ⟨hrolllen, hrollvalid, by rw [hstep], ?_⟩
    rw [prefixValue, List.reverse_reverse, rollAscRev_value hs hne hpvalidrev,
      List.length_reverse]
    have hplen : p.length = h.minLength.toNat := ihlen
    rw [hplen]
    show (valueRev h.allowedKeys p.reverse + 1) % _ = _
    have hval' : valueRev h.allowedKeys p.reverse
        = i % h.allowedKeys.length ^ h.minLength.toNat := ihval
    rw [hval']
    exact (Nat.ModEq.add_right 1 (Nat.mod_modEq i _))

theorem descCounter_step {P r : Nat} (hpow : 1 ≤ P) (hr : r < P) :
    (if P - 1 - r = 0 then P - 1 else P - 1 - r - 1) = P - 1 - ((r + 1) % P) := by
  by_cases hwrap : r = P - 1
  · rw [if_pos (by omega), hwrap, Nat.sub_add_cancel hpow, Nat.mod_self, Nat.sub_zero]
  · rw [if_neg (by omega), Nat.mod_eq_of_lt (by omega)]
    omega

theorem seq_iter_desc {h : Hasher} (hs : h.allowedKeys.Sorted (· < ·))
    (hne : h.allowedKeys ≠ []) (hrev : h.reverse = true) (i : Nat) :
    (((seqStepH)^[i] (initSeq h)).buffer.take h.minLength.toNat).length
        = h.minLength.toNat ∧
    (∀ d ∈ ((seqStepH)^[i] (initSeq h)).buffer.take h.minLength.toNat,
        d ∈ h.allowedKeys) ∧
    ((seqStepH)^[i] (initSeq h)).buffer
        = ((seqStepH)^[i] (initSeq h)).buffer.take h.minLength.toNat ++ h.suffix ∧
    prefixValue h.allowedKeys
        (((seqStepH)^[i] (initSeq h)).buffer.take h.minLength.toNat)
      = h.allowedKeys.length ^ h.minLength.toNat - 1
        - i % h.allowedKeys.length ^ h.minLength.toNat := by
  have hlen0 : 0 < h.allowedKeys.length := List.length_pos.2 hne
  have hpow : 1 ≤ h.allowedKeys.length ^ h.minLength.toNat :=
    Nat.one_le_pow _ _ hlen0
  induction i with
  | zero =>
    have hbuf := initSeq_buffer_desc hrev
    have hlenrep : (List.replicate h.minLength.toNat
        (h.allowedKeys.getD (h.allowedKeys.length - 1) 0)).length
        = h.minLength.toNat := List.length_replicate _ _
    have htake : (initSeq h).buffer.take h.minLength.toNat
        = List.replicate h.minLength.toNat
          (h.allowedKeys.getD (h.allowedKeys.length - 1) 0) := by
      rw [hbuf, List.take_left' hlenrep]
    rw [Function.iterate_zero_apply, htake]
    refine ⟨hlenrep, ?_, ?_, ?_⟩
    · intro d hd
      rw [List.eq_of_mem_replicate hd]
      exact getD_mem (by omega)
    · rw [hbuf]
    · rw [prefixValue, List.reverse_replicate, valueRev_replicate_last hs hne,
        Nat.zero_mod, Nat.sub_zero]
  | succ i ih =>
    obtain ⟨ihlen, ihvalid, ihsplit, ihval⟩ := ih
    obtain ⟨hfk, hfm, hfr, hfs, _, _⟩ := seqIter_fields (initSeq h) i
    set s := (seqStepH)^[i] (initSeq h) with hsdef
    set p := s.buffer.take h.minLength.toNat with hpdef
    have hsm : s.minLength = h.minLength := hfm
    have hsk : s.allowedKeys = h.allowedKeys := hfk
    have hsr : s.reverse = true := by rw [hfr]; exact hrev
    have hstep : (seqStepH s).buffer =
        (rollDescRev h.allowedKeys (h.allowedKeys.getD 0 0)
          (h.allowedKeys.getD (h.allowedKeys.length - 1) 0) p.reverse).reverse
        ++ h.suffix := by
      have := seqStepH_buffer
        ihsplit (by rw [hsm]; exact ihlen)
      rw [this, hsr, hsk]
      simp only [if_true]
    have hrolllen : ((rollDescRev h.allowedKeys (h.allowedKeys.getD 0 0)
        (h.allowedKeys.getD (h.allowedKeys.length - 1) 0) p.reverse).reverse).length
        = h.minLength.toNat := by
      rw [List.length_reverse, rollDescRev_length, List.length_reverse]
      exact ihlen
    have hpvalidrev : ∀ d ∈ p.reverse, d ∈ h.allowedKeys :=
      fun d hd => ihvalid d (List.mem_reverse.1 hd)
    have hrollvalid : ∀ d ∈ (rollDescRev h.allowedKeys (h.allowedKeys.getD 0 0)
        (h.allowedKeys.getD (h.allowedKeys.length - 1) 0) p.reverse).reverse,
        d ∈ h.allowedKeys := by
      intro d hd
      exact rollDescRev_valid hne hpvalidrev d (List.mem_reverse.1 hd)
    have htake : (seqStepH s).buffer.take h.minLength.toNat
        = (rollDescRev h.allowedKeys (h.allowedKeys.getD 0 0)
          (h.allowedKeys.getD (h.allowedKeys.length - 1) 0) p.reverse).reverse := by
      rw [hstep, List.take_left' hrolllen]
    rw [Function.iterate_succ_apply', ← hsdef, htake]
    refine ⟨hrolllen, hrollvalid, by rw [hstep], ?_⟩
    rw [prefixValue, List.reverse_reverse, rollDescRev_value hs hne hpvalidrev,
      List.length_reverse]
    have hplen : p.length = h.minLength.toNat := ihlen
    rw [hplen]
    have hval' : valueRev h.allowedKeys p.reverse
        = h.allowedKeys.length ^ h.minLength.toNat - 1
          - i % h.allowedKeys.length ^ h.minLength.toNat := ihval
    rw [hval']
    have hsucc : (i + 1) % h.allowedKeys.length ^ h.minLength.toNat
        = (i % h.allowedKeys.length ^ h.minLength.toNat + 1)
          % h.allowedKeys.length ^ h.minLength.toNat :=
      ((Nat.ModEq.add_right 1 (Nat.mod_modEq i _))).symm
    rw [hsucc]
    exact descCounter_step hpow (Nat.mod_lt i (by omega))

theorem prefixValue_inj {keys : List Nat} (hnd : keys.Nodup) {p q : List Nat}
    (hp : ∀ d ∈ p, d ∈ keys) (hq : ∀ d ∈ q, d ∈ keys)
    (hlen : p.length = q.length) (hv : prefixValue keys p = prefixValue keys q) :
    p = q := by
  have := valueRev_inj hnd p.reverse q.reverse
    (fun d hd => hp d (List.mem_reverse.1 hd))
    (fun d hd => hq d (List.mem_reverse.1 hd))
    (by simpa using hlen) hv
  exact List.reverse_injective this

theorem toNat_eq_of_minLength {h : Hasher} {n : Nat} (hn : h.minLength = (n : Int)) :
    h.minLength.toNat = n := by
  rw [hn]
  exact Int.toNat_natCast n

/-- Every prefix over the alphabet occurs among the first `k^n` sequential
states (both in ascending and in descending mode). -/
theorem seq_prefix_exists {h : Hasher} (hs : h.allowedKeys.Sorted (· < ·))
    (hne : h.allowedKeys ≠ []) {p : List Nat}
    (hp : ∀ d ∈ p, d ∈ h.allowedKeys) (hlen : p.length = h.minLength.toNat) :
    ∃ i, i < h.allowedKeys.length ^ h.minLength.toNat ∧
      ((seqStepH)^[i] (initSeq h)).buffer = p ++ h.suffix := by
  have hvp : prefixValue h.allowedKeys p
      < h.allowedKeys.length ^ h.minLength.toNat := by
    have := prefixValue_lt hne hp
    rwa [hlen] at this
  have hpowpos : 0 < h.allowedKeys.length ^ h.minLength.toNat :=
    Nat.pos_pow_of_pos _ (List.length_pos.2 hne)
  cases hrev : h.reverse with
  | false =>
    refine ⟨prefixValue h.allowedKeys p, hvp, ?_⟩
    obtain ⟨hl, hv, hsplit, hval⟩ := seq_iter_asc hs hne hrev
      (prefixValue h.allowedKeys p)
    have heq : ((seqStepH)^[prefixValue h.allowedKeys p]
        (initSeq h)).buffer.take h.minLength.toNat = p := by
      refine prefixValue_inj hs.nodup hv hp (by rw [hl, hlen]) ?_
      rw [hval, Nat.mod_eq_of_lt hvp]
    rw [hsplit, heq]
  | true =>
    set i := h.allowedKeys.length ^ h.minLength.toNat - 1
      - prefixValue h.allowedKeys p with hidef
    have hi : i < h.allowedKeys.length ^ h.minLength.toNat := by omega
    refine ⟨i, hi, ?_⟩
    obtain ⟨hl, hv, hsplit, hval⟩ := seq_iter_desc hs hne hrev i
    have heq : ((seqStepH)^[i] (initSeq h)).buffer.take h.minLength.toNat = p := by
      refine prefixValue_inj hs.nodup hv hp (by rw [hl, hlen]) ?_
      rw [hval, Nat.mod_eq_of_lt hi]
      omega
    rw [hsplit, heq]

/-! ## C1: odometer enumeration order -/

/-- C1: over a non-empty strictly-sorted (deduplicated ascending) alphabet
and a prefix length `n ≥ 1`, the first `k^n` states of the sequential
odometer (started from the all-`alphabet[0]` prefix in ascending mode, or
from the all-`alphabet[last]` prefix with `reverse`) visit exactly the
`k^n` prefix combinations, each exactly once (the visit list has no
duplicate and contains precisely the length-`n` words over the alphabet),
in strictly ascending — or, reversed, strictly descending — lexicographic
order by byte value. -/
theorem seqOdometer_spec (h : Hasher) (n : Nat)
    (hs : h.allowedKeys.Sorted (· < ·)) (hne : h.allowedKeys ≠ [])
    (hn : h.minLength = (n : Int)) (hn1 : 1 ≤ n) :
    (h.reverse = false →
      (∀ p : List Nat,
        (p.length = n ∧ ∀ d ∈ p, d ∈ h.allowedKeys) ↔ p ∈ seqVisits h n) ∧
      (seqVisits h n).Nodup ∧
      (seqVisits h n).Chain' (fun a b => List.Lex (· < ·) a b)) ∧
    (h.reverse = true →
      (∀ p : List Nat,
        (p.length = n ∧ ∀ d ∈ p, d ∈ h.allowedKeys) ↔ p ∈ seqVisits h n) ∧
      (seqVisits h n).Nodup ∧
      (seqVisits h n).Chain' (fun a b => List.Lex (· < ·) b a)) := by
  have htn : h.minLength.toNat = n := toNat_eq_of_minLength hn
  have hlen0 : 0 < h.allowedKeys.length := List.length_pos.2 hne
  have hpowpos : 0 < h.allowedKeys.length ^ n := Nat.pos_pow_of_pos _ hlen0
  constructor
  · intro hrev
    have hiter := fun i => seq_iter_asc hs hne hrev i
    have hval : ∀ i, prefixValue h.allowedKeys
        (((seqStepH)^[i] (initSeq h)).buffer.take n)
        = i % h.allowedKeys.length ^ n := by
      intro i
      have := (hiter i).2.2.2
      rwa [htn] at this
    have hlength : ∀ i,
        (((seqStepH)^[i] (initSeq h)).buffer.take n).length = n := by
      intro i
      have := (hiter i).1
      rwa [htn] at this
    have hvalid : ∀ i, ∀ d ∈ ((seqStepH)^[i] (initSeq h)).buffer.take n,
        d ∈ h.allowedKeys := by
      intro i
      have := (hiter i).2.1
      rwa [htn] at this
    refine ⟨?_, ?_, ?_⟩
    · intro p
      constructor
      · rintro ⟨hplen, hpv⟩
        have hvp : prefixValue h.allowedKeys p < h.allowedKeys.length ^ n := by
          have := prefixValue_lt hne hpv
          rwa [hplen] at this
        refine List.mem_map.2 ⟨prefixValue h.allowedKeys p,
          List.mem_range.2 hvp, ?_⟩
        refine prefixValue_inj hs.nodup (hvalid _) hpv
          (by rw [hlength _, hplen]) ?_
        rw [hval, Nat.mod_eq_of_lt hvp]
      · intro hmem
        obtain ⟨i, _, rfl⟩ := List.mem_map.1 hmem
        exact ⟨hlength i, hvalid i⟩
    · refine List.Nodup.map_on ?_ (List.nodup_range _)
      intro i hi j hj hfij
      rw [List.mem_range] at hi hj
      have : i % h.allowedKeys.length ^ n = j % h.allowedKeys.length ^ n := by
        rw [← hval i, ← hval j, hfij]
      rwa [Nat.mod_eq_of_lt hi, Nat.mod_eq_of_lt hj] at this
    · rw [seqVisits, List.chain'_map]
      obtain ⟨m, hm⟩ : ∃ m, h.allowedKeys.length ^ n = m + 1 :=
        ⟨h.allowedKeys.length ^ n - 1, by omega⟩
      rw [hm, List.chain'_range_succ]
      intro j hj
      rw [lex_iff_prefixValue hs hne _ _ (hvalid j) (hvalid (j + 1))
        (by rw [hlength, hlength])]
      rw [hval j, hval (j + 1), hm, Nat.mod_eq_of_lt (by omega),
        Nat.mod_eq_of_lt (by omega)]
      omega
  · intro hrev
    have hiter := fun i => seq_iter_desc hs hne hrev i
    have hval : ∀ i, prefixValue h.allowedKeys
        (((seqStepH)^[i] (initSeq h)).buffer.take n)
        = h.allowedKeys.length ^ n - 1 - i % h.allowedKeys.length ^ n := by
      intro i
      have := (hiter i).2.2.2
      rwa [htn] at this
    have hlength : ∀ i,
        (((seqStepH)^[i] (initSeq h)).buffer.take n).length = n := by
      intro i
      have := (hiter i).1
      rwa [htn] at this
    have hvalid : ∀ i, ∀ d ∈ ((seqStepH)^[i] (initSeq h)).buffer.take n,
        d ∈ h.allowedKeys := by
      intro i
      have := (hiter i).2.1
      rwa [htn] at this
    refine ⟨?_, ?_, ?_⟩
    · intro p
      constructor
      · rintro ⟨hplen, hpv⟩
        have hvp : prefixValue h.allowedKeys p < h.allowedKeys.length ^ n := by
          have := prefixValue_lt hne hpv
          rwa [hplen] at this
        refine List.mem_map.2 ⟨h.allowedKeys.length ^ n - 1
          - prefixValue h.allowedKeys p, List.mem_range.2 (by omega), ?_⟩
        refine prefixValue_inj hs.nodup (hvalid _) hpv
          (by rw [hlength _, hplen]) ?_
        rw [hval, Nat.mod_eq_of_lt (by omega)]
        omega
      · intro hmem
        obtain ⟨i, _, rfl⟩ := List.mem_map.1 hmem
        exact ⟨hlength i, hvalid i⟩
    · refine List.Nodup.map_on ?_ (List.nodup_range _)
      intro i hi j hj hfij
      rw [List.mem_range] at hi hj
      have : h.allowedKeys.length ^ n - 1 - i % h.allowedKeys.length ^ n
          = h.allowedKeys.length ^ n - 1 - j % h.allowedKeys.length ^ n := by
        rw [← hval i, ← hval j, hfij]
      rw [Nat.mod_eq_of_lt hi, Nat.mod_eq_of_lt hj] at this
      omega
    · rw [seqVisits, List.chain'_map]
      obtain ⟨m, hm⟩ : ∃ m, h.allowedKeys.length ^ n = m + 1 :=
        ⟨h.allowedKeys.length ^ n - 1, by omega⟩
      rw [hm, List.chain'_range_succ]
      intro j hj
      rw [lex_iff_prefixValue hs hne _ _ (hvalid (j + 1)) (hvalid j)
        (by rw [hlength, hlength])]
      rw [hval j, hval (j + 1), hm, Nat.mod_eq_of_lt (by omega),
        Nat.mod_eq_of_lt (by omega)]
      omega

/-- Witness for C1 on alphabet `{a, b}` with `n = 2`: the visit list contains
`"ba"`, has no duplicates, and is a strictly ascending chain. -/
theorem seqOdometer_spec_witness :
    [98, 97] ∈ seqVisits abHasher 2 ∧ (seqVisits abHasher 2).Nodup ∧
    (seqVisits abHasher 2).Chain' (fun a b => List.Lex (· < ·) a b) := by
  have h := (seqOdometer_spec abHasher 2 (by decide) (by decide) (by decide)
    (by decide)).1 rfl
  exact ⟨(h.1 [98, 97]).1 (by decide), h.2.1, h.2.2⟩

/-! ## C3: buffer invariants -/

theorem verify_none_facts {h : Hasher} (hv : verify h = none) :
    h.allowedKeys ≠ [] ∧ ∃ w, algos h.algo = some w ∧ h.expected.length * 8 = w := by
  unfold verify at hv
  by_cases h1 : (h.allowedKeys.length == 0) = true
  · rw [if_pos h1] at hv; cases hv
  rw [if_neg h1] at hv
  by_cases h2 : (h.minLength == 0) = true
  · rw [if_pos h2] at hv; cases hv
  rw [if_neg h2] at hv
  by_cases h3 : (h.algo.length == 0) = true
  · rw [if_pos h3] at hv; cases hv
  rw [if_neg h3] at hv
  refine ⟨by simpa [List.length_eq_zero] using h1, ?_⟩
  cases hA : algos h.algo with
  | none =>
    rw [hA] at hv
    have hv2 : some (GoErr.unknownAlgo h.algo) = (none : Option GoErr) := hv
    cases hv2
  | some w =>
    rw [hA] at hv
    have hv2 : (if (h.expected.length * 8 == w) = true then (none : Option GoErr)
        else some (GoErr.wrongSize w (h.expected.length * 8))) = none := hv
    by_cases hsize : (h.expected.length * 8 == w) = true
    · exact ⟨w, rfl, by simpa using hsize⟩
    · rw [if_neg hsize] at hv2; cases hv2

theorem seq_iter_invariant {h : Hasher} (hne : h.allowedKeys ≠ []) (i : Nat) :
    (((seqStepH)^[i] (initSeq h)).buffer.take h.minLength.toNat).length
        = h.minLength.toNat ∧
    (∀ d ∈ ((seqStepH)^[i] (initSeq h)).buffer.take h.minLength.toNat,
        d ∈ h.allowedKeys) ∧
    ((seqStepH)^[i] (initSeq h)).buffer
        = ((seqStepH)^[i] (initSeq h)).buffer.take h.minLength.toNat ++ h.suffix := by
  have hlen0 : 0 < h.allowedKeys.length := List.length_pos.2 hne
  induction i with
  | zero =>
    rw [Function.iterate_zero_apply]
    have hfill : (if h.reverse then h.allowedKeys.getD (h.allowedKeys.length - 1) 0
        else h.allowedKeys.getD 0 0) ∈ h.allowedKeys := by
      by_cases hr : h.reverse = true
      · rw [if_pos hr]; exact getD_mem (by omega)
      · rw [if_neg hr]; exact getD_mem hlen0
    have hbuf : (initSeq h).buffer
        = List.replicate h.minLength.toNat
            (if h.reverse then h.allowedKeys.getD (h.allowedKeys.length - 1) 0
             else h.allowedKeys.getD 0 0) ++ h.suffix := by
      cases hr : h.reverse with
      | false => rw [initSeq_buffer_asc hr]; rfl
      | true => rw [initSeq_buffer_desc hr]; rfl
    have hlenrep := List.length_replicate h.minLength.toNat
      (if h.reverse then h.allowedKeys.getD (h.allowedKeys.length - 1) 0
       else h.allowedKeys.getD 0 0)
    have htake : (initSeq h).buffer.take h.minLength.toNat
        = List.replicate h.minLength.toNat
            (if h.reverse then h.allowedKeys.getD (h.allowedKeys.length - 1) 0
             else h.allowedKeys.getD 0 0) := by
      rw [hbuf, List.take_left' hlenrep]
    rw [htake]
    refine ⟨hlenrep, ?_, by rw [hbuf]⟩
    intro d hd
    rw [List.eq_of_mem_replicate hd]
    exact hfill
  | succ i ih =>
    obtain ⟨ihlen, ihvalid, ihsplit⟩ := ih
    obtain ⟨hfk, hfm, hfr, hfs, _, _⟩ := seqIter_fields (initSeq h) i
    set s := (seqStepH)^[i] (initSeq h) with hsdef
    set p := s.buffer.take h.minLength.toNat with hpdef
    have hsm : s.minLength = h.minLength := hfm
    have hsk : s.allowedKeys = h.allowedKeys := hfk
    have hpvalidrev : ∀ d ∈ p.reverse, d ∈ h.allowedKeys :=
      fun d hd => ihvalid d (List.mem_reverse.1 hd)
    have hstep : (seqStepH s).buffer =
        (if h.reverse then
          (rollDescRev h.allowedKeys (h.allowedKeys.getD 0 0)
            (h.allowedKeys.getD (h.allowedKeys.length - 1) 0) p.reverse).reverse
         else
          (rollAscRev h.allowedKeys (h.allowedKeys.getD 0 0)
            (h.allowedKeys.getD (h.allowedKeys.length - 1) 0) p.reverse).reverse)
        ++ h.suffix := by
      have := seqStepH_buffer
        ihsplit (by rw [hsm]; exact ihlen)
      rw [this, hsk, hfr]
      rfl
    have hrolllen : ((if h.reverse then
        (rollDescRev h.allowedKeys (h.allowedKeys.getD 0 0)
          (h.allowedKeys.getD (h.allowedKeys.length - 1) 0) p.reverse).reverse
       else
        (rollAscRev h.allowedKeys (h.allowedKeys.getD 0 0)
          (h.allowedKeys.getD (h.allowedKeys.length - 1) 0) p.reverse).reverse)).length
        = h.minLength.toNat := by
      by_cases hr : h.reverse = true
      · rw [if_pos hr, List.length_reverse, rollDescRev_length, List.length_reverse]
        exact ihlen
      · rw [if_neg hr, List.length_reverse, rollAscRev_length, List.length_reverse]
        exact ihlen
    have hrollvalid : ∀ d ∈ (if h.reverse then
        (rollDescRev h.allowedKeys (h.allowedKeys.getD 0 0)
          (h.allowedKeys.getD (h.allowedKeys.length - 1) 0) p.reverse).reverse
       else
        (rollAscRev h.allowedKeys (h.allowedKeys.getD 0 0)
          (h.allowedKeys.getD (h.allowedKeys.length - 1) 0) p.reverse).reverse),
        d ∈ h.allowedKeys := by
      by_cases hr : h.reverse = true
      · rw [if_pos hr]
        intro d hd
        exact rollDescRev_valid hne hpvalidrev d (List.mem_reverse.1 hd)
      · rw [if_neg hr]
        intro d hd
        exact rollAscRev_valid hne hpvalidrev d (List.mem_reverse.1 hd)
    have htake : (seqStepH s).buffer.take h.minLength.toNat
        = (if h.reverse then
          (rollDescRev h.allowedKeys (h.allowedKeys.getD 0 0)
            (h.allowedKeys.getD (h.allowedKeys.length - 1) 0) p.reverse).reverse
         else
          (rollAscRev h.allowedKeys (h.allowedKeys.getD 0 0)
            (h.allowedKeys.getD (h.allowedKeys.length - 1) 0) p.reverse).reverse) := by
      rw [hstep, List.take_left' hrolllen]
    rw [Function.iterate_succ_apply', ← hsdef, htake]
    exact ⟨hrolllen, hrollvalid, by rw [hstep]⟩

theorem randState_fields (stream : Nat → Nat) (h : Hasher) (t : Nat) :
    (randState stream h t).allowedKeys = h.allowedKeys ∧
    (randState stream h t).minLength = h.minLength ∧
    (randState stream h t).suffix = h.suffix := by
  induction t with
  | zero => exact ⟨rfl, rfl, rfl⟩
  | succ t ih =>
    obtain ⟨h1, h2, h3⟩ := ih
    exact ⟨h1, h2, h3⟩

theorem rand_iter_invariant {h : Hasher} (hne : h.allowedKeys ≠ [])
    (stream : Nat → Nat) (t : Nat) :
    ((randState stream h t).buffer.take h.minLength.toNat).length
        = h.minLength.toNat ∧
    (∀ d ∈ (randState stream h t).buffer.take h.minLength.toNat,
        d ∈ h.allowedKeys) ∧
    (randState stream h t).buffer
        = (randState stream h t).buffer.take h.minLength.toNat ++ h.suffix := by
  have hlen0 : 0 < h.allowedKeys.length := List.length_pos.2 hne
  induction t with
  | zero =>
    have hlenrep := List.length_replicate h.minLength.toNat (h.allowedKeys.getD 0 0)
    have hbuf : (randState stream h 0).buffer
        = List.replicate h.minLength.toNat (h.allowedKeys.getD 0 0) ++ h.suffix := rfl
    have htake : (randState stream h 0).buffer.take h.minLength.toNat
        = List.replicate h.minLength.toNat (h.allowedKeys.getD 0 0) := by
      rw [hbuf, List.take_left' hlenrep]
    rw [htake]
    refine ⟨hlenrep, ?_, by rw [hbuf]⟩
    intro d hd
    rw [List.eq_of_mem_replicate hd]
    exact getD_mem hlen0
  | succ t ih =>
    obtain ⟨ihlen, ihvalid, ihsplit⟩ := ih
    obtain ⟨hfk, hfm, hfs⟩ := randState_fields stream h t
    set s := randState stream h t with hsdef
    have hconv : randState stream h (t + 1) = randStep stream t s := rfl
    rw [hconv]
    have hnewlen : ((List.range h.minLength.toNat).map
        (fun r => h.allowedKeys.getD
          (stream (t * h.minLength.toNat + r) % h.allowedKeys.length) 0)).length
        = h.minLength.toNat := by
      rw [List.length_map, List.length_range]
    have hstep : (randStep stream t s).buffer
        = (List.range h.minLength.toNat).map
            (fun r => h.allowedKeys.getD
              (stream (t * h.minLength.toNat + r) % h.allowedKeys.length) 0)
          ++ h.suffix := by
      show ((List.range s.minLength.toNat).map
          (fun r => s.allowedKeys.getD
            (stream (t * s.minLength.toNat + r) % s.allowedKeys.length) 0))
          ++ s.buffer.drop s.minLength.toNat = _
      rw [hfk, hfm, ihsplit, List.drop_left' ihlen]
    have htake : (randStep stream t s).buffer.take h.minLength.toNat
        = (List.range h.minLength.toNat).map
            (fun r => h.allowedKeys.getD
              (stream (t * h.minLength.toNat + r) % h.allowedKeys.length) 0) := by
      rw [hstep, List.take_left' hnewlen]
    rw [htake]
    refine ⟨hnewlen, ?_, by rw [hstep]⟩
    intro d hd
    obtain ⟨r, _, rfl⟩ := List.mem_map.1 hd
    exact getD_mem (Nat.mod_lt _ hlen0)

/-- C3: after buffer initialization inside `FindSequential` (and before and
after every enumeration step), and likewise inside `FindRandom` (given any
random stream), the candidate buffer has length `minLength + len(suffix)`,
its trailing `len(suffix)` bytes are exactly the configured suffix, and every
byte of its first `minLength` positions belongs to the configured alphabet. -/
theorem bufferInvariant_spec (h : Hasher) (stream : Nat → Nat) (i : Nat)
    (hv : verify h = none) (hml : 1 ≤ h.minLength) :
    (((seqStepH)^[i] (initSeq h)).buffer.length
        = h.minLength.toNat + h.suffix.length ∧
      ((seqStepH)^[i] (initSeq h)).buffer.drop h.minLength.toNat = h.suffix ∧
      ∀ d ∈ ((seqStepH)^[i] (initSeq h)).buffer.take h.minLength.toNat,
        d ∈ h.allowedKeys) ∧
    ((randState stream h i).buffer.length = h.minLength.toNat + h.suffix.length ∧
      (randState stream h i).buffer.drop h.minLength.toNat = h.suffix ∧
      ∀ d ∈ (randState stream h i).buffer.take h.minLength.toNat,
        d ∈ h.allowedKeys) := by
  have hne : h.allowedKeys ≠ [] := (verify_none_facts hv).1
  obtain ⟨hslen, hsvalid, hssplit⟩ := seq_iter_invariant hne i
  obtain ⟨hrlen, hrvalid, hrsplit⟩ := rand_iter_invariant hne stream i
  refine ⟨⟨?_, ?_, hsvalid⟩, ?_, ?_, hrvalid⟩
  · rw [hssplit, List.length_append, hslen]
  · rw [hssplit, List.drop_left' hslen]
  · rw [hrsplit, List.length_append, hrlen]
  · rw [hrsplit, List.drop_left' hrlen]

/-- Witness for C3 at the concrete `abHasher` configuration after three
steps of each loop. -/
theorem bufferInvariant_spec_witness :
    ((seqStepH)^[3] (initSeq abHasher)).buffer.length
      = abHasher.minLength.toNat + abHasher.suffix.length ∧
    (randState (fun j => j + 5) abHasher 3).buffer.drop abHasher.minLength.toNat
      = abHasher.suffix := by
  have h := bufferInvariant_spec abHasher (fun j => j + 5) 3 (by decide) (by decide)
  exact ⟨h.1.1, h.2.2.1⟩

/-! ## C2: FindSequential returns the first match -/

theorem equals_eq_of_registered {digest : String → List Nat → List Nat}
    {s : Hasher} {w : Nat} (hA : algos s.algo = some w) :
    equals digest s = byteArrayEquals (digest s.algo s.buffer) s.expected := by
  cases hE : byteArrayEquals (digest s.algo s.buffer) s.expected with
  | false =>
    unfold equals
    simp [hE]
  | true =>
    unfold algos at hA
    split at hA
    all_goals (try cases hA)
    all_goals (rename_i heq; rw [heq] at hE; rw [equals, heq]; simp [hE])

theorem findSeqAux_first {digest : String → List Nat → List Nat} {i : Nat} :
    ∀ (s : Hasher) (fuel : Nat), i < fuel →
      (∀ j < i, equals digest ((seqStepH)^[j] s) = false) →
      equals digest ((seqStepH)^[i] s) = true →
      findSeqAux digest fuel s = some (((seqStepH)^[i] s).buffer) := by
  induction i with
  | zero =>
    intro s fuel hf _ hi
    obtain ⟨f, rfl⟩ : ∃ f, fuel = f + 1 := ⟨fuel - 1, by omega⟩
    rw [Function.iterate_zero_apply] at hi ⊢
    rw [findSeqAux, if_pos hi]
  | succ i ih =>
    intro s fuel hf hprev hmatch
    obtain ⟨f, rfl⟩ : ∃ f, fuel = f + 1 := ⟨fuel - 1, by omega⟩
    have h0 : equals digest s = false := by
      have := hprev 0 (Nat.succ_pos i)
      rwa [Function.iterate_zero_apply] at this
    rw [findSeqAux, h0]
    simp only [Bool.false_eq_true, if_false]
    rw [Function.iterate_succ_apply] at hmatch ⊢
    refine ih (seqStepH s) f (by omega) (fun j hj => ?_) hmatch
    have := hprev (j + 1) (by omega)
    rwa [Function.iterate_succ_apply] at this

/-- C2: for every configuration that passes `verify` and every prefix over
the alphabet whose digest (with the configured suffix appended) equals the
target, `FindSequential` terminates — with fuel past the first matching
index it returns exactly the candidate at the first matching position of the
enumeration, as a non-error result.  In particular, with alphabet `{a,m,o,t}`,
length 5 and a target equal to the digest of "motom" (under the modelled
injective stand-in for the external sha1), it returns "motom". -/
theorem findSequential_spec :
    (∀ (digest : String → List Nat → List Nat) (h : Hasher) (n : Nat)
        (p : List Nat),
      h.allowedKeys.Sorted (· < ·) →
      verify h = none →
      h.minLength = (n : Int) → 1 ≤ n →
      p.length = n → (∀ d ∈ p, d ∈ h.allowedKeys) →
      byteArrayEquals (digest h.algo (p ++ h.suffix)) h.expected = true →
      ∃ i, i < h.allowedKeys.length ^ n ∧
        seqMatches digest h i = true ∧
        (∀ j < i, seqMatches digest h j = false) ∧
        ∀ fuel, i < fuel →
          FindSequential digest h fuel
            = some (Except.ok (((seqStepH)^[i] (initSeq h)).buffer))) ∧
    FindSequential toyDigest motomHasher 442 = some (Except.ok motomBytes) := by
  constructor
  · intro digest h n p hs hv hn hn1 hplen hpv hmatch
    have hne : h.allowedKeys ≠ [] := (verify_none_facts hv).1
    obtain ⟨w, hA, _⟩ := (verify_none_facts hv).2
    have htn : h.minLength.toNat = n := toNat_eq_of_minLength hn
    obtain ⟨i₀, hi₀lt, hbuf⟩ := seq_prefix_exists hs hne hpv
      (by rw [htn]; exact hplen)
    rw [htn] at hi₀lt
    obtain ⟨_, _, _, _, halgo, hexp⟩ := seqIter_fields (initSeq h) i₀
    have hmatch₀ : seqMatches digest h i₀ = true := by
      unfold seqMatches
      rw [equals_eq_of_registered
        (show algos ((seqStepH)^[i₀] (initSeq h)).algo = some w by
          rw [halgo]; exact hA)]
      rw [halgo, hexp, hbuf]
      exact hmatch
    have hex : ∃ i, seqMatches digest h i = true := ⟨i₀, hmatch₀⟩
    refine ⟨Nat.find hex, ?_, Nat.find_spec hex, fun j hj => ?_, fun fuel hfl => ?_⟩
    · exact lt_of_le_of_lt (Nat.find_min' hex hmatch₀) hi₀lt
    · have := Nat.find_min hex hj
      simpa using this
    · unfold FindSequential
      rw [hv]
      rw [findSeqAux_first (initSeq h) fuel hfl
        (fun j hj => by simpa using Nat.find_min hex hj) (Nat.find_spec hex)]
      rfl
  · set_option maxRecDepth 100000 in rfl

/-- Witness for C2's general statement, instantiated at the "motom" scenario
itself: all hypotheses hold there concretely. -/
theorem findSequential_spec_witness :
    ∃ i, i < motomHasher.allowedKeys.length ^ 5 ∧
      seqMatches toyDigest motomHasher i = true ∧
      (∀ j < i, seqMatches toyDigest motomHasher j = false) ∧
      ∀ fuel, i < fuel →
        FindSequential toyDigest motomHasher fuel
          = some (Except.ok (((seqStepH)^[i] (initSeq motomHasher)).buffer)) :=
  findSequential_spec.1 toyDigest motomHasher 5 motomBytes (by decide) (by decide)
    (by decide) (by decide) (by decide) (by decide) (by decide)

end GoHash
